import Mathlib

/-!
Verification development for the lunaris annotation-document translator and
dual-view line correlator.

Shallow embedding of `src/gui/tauri/src/services/api/hkanno.ts`
(`hkannoFromText`, `hkannoToText`) and of `buildIndexMaps` from
`src/gui/tauri/src/components/templates/HkAnno/useHkannoEditor.ts`.

Modelling conventions:
- JavaScript strings are modelled as `List Char`; a text is split into lines
  exactly where the source splits it (`split('\n')` for the parser,
  `split(/\r?\n/)` for the correlator).
- JavaScript numbers are modelled by `JNum`: `NaN`, signed infinity, or an
  exact rational.  `parseFloat` reads the longest decimal-literal prefix of a
  token exactly; `toFixed(6)` rounds to six decimals (half away from zero on
  the magnitude, as ECMA-262 specifies).  Exact rationals stand in for IEEE
  doubles; every decimal literal that appears in the claims is far inside
  double precision, so the observable string/equality behaviour coincides.
- The JavaScript whitespace class `\s` is modelled by `jsWs` (the ASCII
  whitespace characters plus NBSP; the exotic Unicode space characters are
  omitted, no claim mentions them).
-/

namespace Lunaris

/-- JavaScript whitespace predicate (regexp class `\s`, `String.prototype.trim`). -/
def jsWs (c : Char) : Bool :=
  c = ' ' || c = '\t' || c = '\n' || c = '\r' || c = '\x0b' || c = '\x0c' || c = '\u00A0'

/-- Drop trailing characters satisfying `jsWs`. -/
def trimRight (l : List Char) : List Char :=
  (l.reverse.dropWhile jsWs).reverse

/-- Model of JavaScript `String.prototype.trim`. -/
def jsTrim (l : List Char) : List Char :=
  trimRight (l.dropWhile jsWs)

/-- Split at every single character satisfying `p`, keeping empty pieces:
model of JavaScript `str.split(regexpMatchingOneChar)`, e.g. `split(/\s/)`
or `split(':')`.  Always returns at least one piece. -/
def splitSingle (p : Char → Bool) : List Char → List (List Char)
  | [] => [[]]
  | c :: rest =>
    if p c then [] :: splitSingle p rest
    else (c :: (splitSingle p rest).headD []) :: (splitSingle p rest).tail

/-- Model of `Array.prototype.join(' ')` on a list of strings. -/
def joinSp : List (List Char) → List Char
  | [] => []
  | [x] => x
  | x :: y :: t => x ++ ' ' :: joinSp (y :: t)

/-- Model of `Array.prototype.join('\n')` on a list of strings. -/
def joinNl : List (List Char) → List Char
  | [] => []
  | [x] => x
  | x :: y :: t => x ++ '\n' :: joinNl (y :: t)

/-- Model of `str.split('\n')` used by `hkannoFromText`. -/
def splitNl (text : List Char) : List (List Char) :=
  splitSingle (fun c => c = '\n') text

/-- Model of `str.split(/\r?\n/)` used by `buildIndexMaps`: split on `'\n'`,
then remove one trailing `'\r'` from every piece except the last. -/
def splitCrNl (text : List Char) : List (List Char) :=
  go (splitSingle (fun c => c = '\n') text)
where
  dropCr (l : List Char) : List Char :=
    match l.reverse with
    | '\r' :: r => r.reverse
    | _ => l
  go : List (List Char) → List (List Char)
    | [] => []
    | [p] => [p]
    | p :: rest => dropCr p :: go rest

/-! ## JavaScript numbers -/

/-- An exact decimal number `mant / 10 ^ exp`.  The finite JavaScript numbers
this code meets all enter and leave it as decimal strings, so exact decimal
values model them; `decNorm` keeps values canonical (no trailing factor of
ten in the mantissa while the exponent is positive), which makes structural
equality coincide with numeric equality.  Plain `Nat`/`Int` arithmetic keeps
every operation computable by the kernel. -/
structure Dec where
  mant : Int
  exp : Nat
deriving DecidableEq, Repr

/-- Strip common factors of ten from `mant / 10 ^ exp`; the fuel is the
exponent itself, which bounds the number of strips. -/
def decNormAux : Nat → Int → Nat → Dec
  | 0, m, e => ⟨m, e⟩
  | fuel + 1, m, e =>
    if e = 0 then ⟨m, 0⟩
    else if m % 10 = 0 then decNormAux fuel (m / 10) (e - 1)
    else ⟨m, e⟩

/-- The canonical form of `m / 10 ^ e`. -/
def decNorm (m : Int) (e : Nat) : Dec :=
  decNormAux e m e

/-- A JavaScript number as observed by this code: `NaN`, a signed infinity,
or a finite value (an exact decimal). -/
inductive JNum where
  | nan : JNum
  | inf : Bool → JNum
  | num : Dec → JNum
deriving DecidableEq, Repr

/-- Decimal digit characters to the value they denote (most significant first). -/
def digitsToNat (ds : List Char) : Nat :=
  ds.foldl (fun a c => 10 * a + (c.toNat - 48)) 0

/-- The character for a decimal digit `d < 10`. -/
def digitChar (d : Nat) : Char :=
  Char.ofNat (48 + d)

/-- Decimal digits of `n`, most significant first, via explicit fuel so that
the kernel can evaluate it. -/
def natDigitsAux : Nat → Nat → List Char
  | 0, _ => []
  | fuel + 1, n =>
    if n < 10 then [digitChar n]
    else natDigitsAux fuel (n / 10) ++ [digitChar (n % 10)]

/-- Decimal rendering of a natural number (`"0"` for zero). -/
def natDigits (n : Nat) : List Char :=
  natDigitsAux (n + 1) n

/-- `parseFloat` front end: skip leading whitespace, record whether a minus
sign is present, and strip one optional sign. -/
def floatSplit (s0 : List Char) : Bool × List Char :=
  let s := s0.dropWhile jsWs
  (decide (s.headD ' ' = '-'),
   if s.headD ' ' = '-' ∨ s.headD ' ' = '+' then s.tail else s)

/-- The fraction digits of the decimal literal: the digits directly after a
decimal point that follows the integer digits (empty when there is none). -/
def floatFrac (s1 : List Char) : List Char :=
  let r1 := s1.dropWhile Char.isDigit
  if r1.headD ' ' = '.' then r1.tail.takeWhile Char.isDigit else []

/-- What remains of the token after the integer and fraction digits. -/
def floatRest (s1 : List Char) : List Char :=
  let r1 := s1.dropWhile Char.isDigit
  if r1.headD ' ' = '.' then r1.tail.dropWhile Char.isDigit else r1

/-- The optional exponent part `e`/`E`, optional sign, digits; contributes
zero when absent or when no digits follow. -/
def floatExp (r2 : List Char) : Int :=
  if r2.headD ' ' = 'e' ∨ r2.headD ' ' = 'E' then
    let r3 := r2.tail
    let r4 := if r3.headD ' ' = '-' ∨ r3.headD ' ' = '+' then r3.tail else r3
    let ed := r4.takeWhile Char.isDigit
    if ed = [] then 0
    else if r3.headD ' ' = '-' then -(digitsToNat ed : Int) else (digitsToNat ed : Int)
  else 0

/-- The numeric value of an accepted token body under a sign: integer digits,
fraction digits and exponent assembled into an exact decimal. -/
def floatVal (neg : Bool) (s1 : List Char) : Dec :=
  let ip := s1.takeWhile Char.isDigit
  let fp := floatFrac s1
  let e := floatExp (floatRest s1)
  let mant0 : Int := (digitsToNat ip : Int) * (10 : Int) ^ fp.length + (digitsToNat fp : Int)
  let mant : Int := if neg then -mant0 else mant0
  if 0 ≤ e then decNorm (mant * (10 : Int) ^ e.toNat) fp.length
  else decNorm mant (fp.length + (-e).toNat)

/-- Model of ECMAScript `parseFloat` on a token: skip leading whitespace, read
the longest `StrDecimalLiteral` prefix (optional sign, then `Infinity` or
digits with optional fraction and optional exponent), `NaN` when none. -/
def parseFloat (s0 : List Char) : JNum :=
  if List.isPrefixOf ("Infinity".toList) (floatSplit s0).2 then JNum.inf (floatSplit s0).1
  else if (floatSplit s0).2.takeWhile Char.isDigit = [] ∧ floatFrac (floatSplit s0).2 = [] then
    JNum.nan
  else JNum.num (floatVal (floatSplit s0).1 (floatSplit s0).2)

/-- The acceptance condition of the `parseFloat` grammar: after optional
whitespace and an optional sign the token starts with `Infinity`, or carries
at least one digit before, or directly after, the decimal point. -/
def floatShaped (s0 : List Char) : Bool :=
  List.isPrefixOf ("Infinity".toList) (floatSplit s0).2 ||
    !(decide ((floatSplit s0).2.takeWhile Char.isDigit = [])) ||
    !(decide (floatFrac (floatSplit s0).2 = []))

theorem parseFloat_nan_iff (s : List Char) :
    parseFloat s = JNum.nan ↔ floatShaped s = false := by
  unfold parseFloat floatShaped
  by_cases h1 : List.isPrefixOf ("Infinity".toList) (floatSplit s).2 = true
  · rw [if_pos h1, h1]
    simp
  · have h1f := Bool.eq_false_iff.mpr h1
    rw [if_neg h1, h1f, Bool.false_or]
    by_cases h2 : (floatSplit s).2.takeWhile Char.isDigit = [] ∧ floatFrac (floatSplit s).2 = []
    · rw [if_pos h2]
      simp [h2.1, h2.2]
    · rw [if_neg h2]
      rcases Decidable.not_and_iff_or_not.mp h2 with h3 | h3 <;> simp [h3]

/-- Fractional digits of `(m mod p) / p` (with `p = 10 ^ exp`) up to 20
places, trailing zeros dropped.  Model simplification of the
shortest-round-trip digits JavaScript `ToString` would print: exact whenever
the expansion terminates within 20 places, which covers the doubles this code
meets; only ever used inside `#`-comment lines and the `≥ 1e21` branch of
`toFixed`, where no claim depends on the exact digits. -/
def fracDigits20 (m p : Nat) : List Char :=
  let n20 : Nat := m % p * 10 ^ (20 : Nat) / p
  let padded := List.replicate (20 - (natDigits n20).length) '0' ++ natDigits n20
  (padded.reverse.dropWhile (fun c => c = '0')).reverse

/-- Model of JavaScript `ToString` on a finite number (template-literal
interpolation `${x}`). -/
def jsToStringDec (d : Dec) : List Char :=
  let s : List Char := if d.mant < 0 then ['-'] else []
  let m := d.mant.natAbs
  let p := 10 ^ d.exp
  if m % p = 0 then s ++ natDigits (m / p)
  else s ++ natDigits (m / p) ++ '.' :: fracDigits20 m p

/-- Model of JavaScript `ToString` on a number. -/
def jsToString : JNum → List Char
  | JNum.nan => "NaN".toList
  | JNum.inf b => (if b then ['-'] else []) ++ "Infinity".toList
  | JNum.num d => jsToStringDec d

/-- Pad the 6-decimal fraction part to exactly six digits. -/
def pad6 (k : Nat) : List Char :=
  List.replicate (6 - (natDigits k).length) '0' ++ natDigits k

/-- Model of ECMAScript `Number.prototype.toFixed(6)`: `"NaN"` for NaN,
`"Infinity"` for infinities, `ToString` for magnitudes at or above `10^21`,
otherwise the sign, the integer part, a dot and exactly six fraction digits
of the magnitude rounded to six decimals (ties away from zero):
`n = ⌊|x| * 10^6 + 1/2⌋` computed exactly as
`(2 * m * 10^6 + 10^exp) / (2 * 10^exp)` on the magnitude `m / 10^exp`. -/
def toFixed6 : JNum → List Char
  | JNum.nan => "NaN".toList
  | JNum.inf b => (if b then ['-'] else []) ++ "Infinity".toList
  | JNum.num d =>
    let s : List Char := if d.mant < 0 then ['-'] else []
    let m := d.mant.natAbs
    if 10 ^ (21 + d.exp) ≤ m then s ++ jsToStringDec ⟨(m : Int), d.exp⟩
    else
      let n : Nat := (2 * m * 10 ^ (6 : Nat) + 10 ^ d.exp) / (2 * 10 ^ d.exp)
      s ++ natDigits (n / 10 ^ (6 : Nat)) ++ '.' :: pad6 (n % 10 ^ (6 : Nat))

/-! ## Document model (`hkanno.ts` zod schemas) -/

/-- `AnnotationSchema`: a `(time, text)` pair; `text` is nullable.
(The source calls this type `Annotation`.) -/
structure Anno where
  time : JNum
  text : Option (List Char)
deriving DecidableEq, Repr

/-- `AnnotationTrackSchema`: a nullable `track_name` with its annotations. -/
structure AnnotationTrack where
  track_name : Option (List Char)
  annotations : List Anno
deriving DecidableEq, Repr

/-- `HkannoSchema`: the document root. -/
structure Hkanno where
  ptr : List Char
  num_original_frames : JNum
  duration : JNum
  annotation_tracks : List AnnotationTrack
deriving DecidableEq, Repr

/-- `hkStringPtr` / `hkCString` XML null representation (`'␀'`). -/
def NULL_STR : List Char := ['␀']

/-- The sentinel decode applied to a parsed name/text value:
`v == NULL_STR ? null : v`. -/
def decodeStr (s : List Char) : Option (List Char) :=
  if s = NULL_STR then none else some s

/-! ## Text parser (`hkannoFromText`) -/

/-- The single line of parser lookback state: tracks already emitted, and the
current track or none (`currentTrack`). -/
structure ParseState where
  out : List AnnotationTrack
  cur : Option AnnotationTrack
deriving DecidableEq, Repr

/-- Case-insensitively strip `pat` (given in lowercase) from the front of `l`. -/
def ciStrip : List Char → List Char → Option (List Char)
  | [], l => some l
  | _, [] => none
  | p :: ps, c :: cs => if c.toLower = p then ciStrip ps cs else none

/-- Model of the header-line test `/^trackName\s*:/i.test(trimmed)`: the
keyword case-insensitively, then any whitespace, then a colon. -/
def headerTest (l : List Char) : Bool :=
  match ciStrip ("trackname".toList) l with
  | none => false
  | some rest => decide ((rest.dropWhile jsWs).headD ' ' = ':')

/-- One iteration of the `for (const line of lines)` loop of `hkannoFromText`. -/
def processLine (st : ParseState) (line : List Char) : ParseState :=
  let trimmed := jsTrim line
  if trimmed = [] then st
  else if headerTest trimmed then
    let track_name := jsTrim ((splitSingle (fun c => c = ':') trimmed).getD 1 [])
    { out := st.out ++ st.cur.toList,
      cur := some { track_name := decodeStr track_name, annotations := [] } }
  else if trimmed.headD ' ' = '#' then st
  else
    let cur := st.cur.getD { track_name := none, annotations := [] }
    let pieces := splitSingle jsWs trimmed
    let t := pieces.headD []
    let txt := pieces.tail
    let annText := jsTrim (joinSp txt)
    { out := st.out,
      cur := some { cur with
        annotations := cur.annotations ++ [{ time := parseFloat t, text := decodeStr annText }] } }

/-- Run the parser loop over a list of lines and push the pending current
track, as `hkannoFromText` does after its loop. -/
def parseLines (lines : List (List Char)) : List AnnotationTrack :=
  let st := lines.foldl processLine { out := [], cur := none }
  st.out ++ st.cur.toList

/-- `hkannoFromText`: parse hkanno v2 text into `AnnotationTrack[]`. -/
def hkannoFromText (text : List Char) : List AnnotationTrack :=
  parseLines (splitNl text)

/-! ## Text serializer (`hkannoToText`) -/

/-- `x?.trim() ?? NULL_STR`: encode an optional name/text field. -/
def encodeOptStr : Option (List Char) → List Char
  | none => NULL_STR
  | some s => jsTrim s

/-- The serialized annotation line `` `${ann.time.toFixed(6)} ${text}` ``. -/
def annLine (a : Anno) : List Char :=
  toFixed6 a.time ++ ' ' :: encodeOptStr a.text

/-- The block of lines pushed for one track: a blank separator, the
`trackName:` header, the `# numAnnotations:` comment, then one line per
annotation. -/
def trackLines (t : AnnotationTrack) : List (List Char) :=
  [] :: ("trackName: ".toList ++ encodeOptStr t.track_name)
     :: ("# numAnnotations: ".toList ++ natDigits t.annotations.length)
     :: t.annotations.map annLine

/-- The full list of lines `hkannoToText` pushes before joining with `'\n'`. -/
def hkannoLines (h : Hkanno) : List (List Char) :=
  ("# numOriginalFrames: ".toList ++ jsToString h.num_original_frames)
    :: ("# duration: ".toList ++ jsToString h.duration)
    :: ("# numAnnotationTracks: ".toList ++ natDigits h.annotation_tracks.length)
    :: (h.annotation_tracks.map trackLines).flatten

/-- `hkannoToText`: convert an `Hkanno` object to editable text. -/
def hkannoToText (h : Hkanno) : List Char :=
  joinNl (hkannoLines h)

/-! ## Line correlator (`buildIndexMaps`) -/

/-- The primary-side header-shape test `line.trim().startsWith('trackName')`. -/
def corrIsTrackLine (l : List Char) : Bool :=
  List.isPrefixOf ("trackName".toList) (jsTrim l)

/-- The token `line.trim().split(/\s+/)[0]`: on a trimmed string this is the
maximal leading run of non-whitespace characters (empty for an empty line). -/
def corrFirstTok (l : List Char) : List Char :=
  (jsTrim l).takeWhile (fun c => !jsWs c)

/-- The primary-side time-shape test: not header-shaped (the `else if`), and
`!isNaN(parseFloat(line.trim().split(/\s+/)[0]))`. -/
def corrIsTimeLine (l : List Char) : Bool :=
  !corrIsTrackLine l && !(decide (parseFloat (corrFirstTok l) = JNum.nan))

/-- The secondary-side header tag `/<hkparam name="trackName">/`. -/
def rightTrackPat : List Char := "<hkparam name=\"trackName\">".toList

/-- The secondary-side time tag `/<hkparam name="time">/`. -/
def rightTimePat : List Char := "<hkparam name=\"time\">".toList

/-- Substring test: model of `regexpLiteral.test(line)` for a literal pattern. -/
def containsSub (pat : List Char) : List Char → Bool
  | [] => List.isPrefixOf pat []
  | c :: rest => List.isPrefixOf pat (c :: rest) || containsSub pat rest

/-- The `leftLines.forEach` collection loop of `buildIndexMaps`: 1-based line
numbers of the header-shaped lines and (else-if) of the time-shaped lines, in
encounter order.  `i` is the 0-based index of the first line. -/
def collectPrimaryAux : Nat → List (List Char) → List Nat × List Nat
  | _, [] => ([], [])
  | i, l :: rest =>
    let r := collectPrimaryAux (i + 1) rest
    if corrIsTrackLine l then ((i + 1) :: r.1, r.2)
    else if corrIsTimeLine l then (r.1, (i + 1) :: r.2)
    else r

/-- Line numbers of header-shaped and time-shaped lines of the primary text. -/
def collectPrimary (lines : List (List Char)) : List Nat × List Nat :=
  collectPrimaryAux 0 lines

/-- The `xmlLines.forEach` collection loop of `buildIndexMaps`. -/
def collectSecondaryAux : Nat → List (List Char) → List Nat × List Nat
  | _, [] => ([], [])
  | i, l :: rest =>
    let r := collectSecondaryAux (i + 1) rest
    if containsSub rightTrackPat l then ((i + 1) :: r.1, r.2)
    else if containsSub rightTimePat l then (r.1, (i + 1) :: r.2)
    else r

/-- Line numbers of `trackName`-tag and `time`-tag lines of the secondary text. -/
def collectSecondary (lines : List (List Char)) : List Nat × List Nat :=
  collectSecondaryAux 0 lines

/-- Model of JavaScript `Map.prototype.set`: an existing key keeps its
position and gets the new value, a fresh key is appended.  The map itself is
modelled as its entry list in insertion order. -/
def mapSet (m : List (Nat × Nat)) (k v : Nat) : List (Nat × Nat) :=
  if k ∈ m.map Prod.fst then m.map (fun p => if p.1 = k then (k, v) else p)
  else m ++ [(k, v)]

/-- The index-pairing loop
`for (let i = 0; i < minCount; i++) map.set(lefts[i], rights[i])`. -/
def buildMapLoop (lefts rights : List Nat) : List (Nat × Nat) :=
  (List.range (min lefts.length rights.length)).foldl
    (fun m i => mapSet m (lefts.getD i 0) (rights.getD i 0)) []

/-- The two maps `buildIndexMaps` returns. -/
structure IndexMaps where
  trackMap : List (Nat × Nat)
  timeMap : List (Nat × Nat)
deriving DecidableEq, Repr

/-- `buildIndexMaps`: build mapping tables between left and right editors by
index order. -/
def buildIndexMaps (leftText xmlText : List Char) : IndexMaps :=
  let leftCollected := collectPrimary (splitCrNl leftText)
  let rightCollected := collectSecondary (splitCrNl xmlText)
  { trackMap := buildMapLoop leftCollected.1 rightCollected.1,
    timeMap := buildMapLoop leftCollected.2 rightCollected.2 }

/-! ## Derived line-classification predicates of the parser

`processLine` examines a line through `jsTrim` and takes exactly one of four
branches; these predicates name the branch conditions so that theorems can
speak about "header line", "comment line", "annotation line". -/

/-- The parser takes its header branch on this line. -/
def parserIsHeaderLine (l : List Char) : Bool :=
  !(decide (jsTrim l = [])) && headerTest (jsTrim l)

/-- The parser takes its comment branch on this line. -/
def parserIsCommentLine (l : List Char) : Bool :=
  !(decide (jsTrim l = [])) && !headerTest (jsTrim l) && decide ((jsTrim l).headD ' ' = '#')

/-- The parser takes its annotation branch on this line. -/
def parserIsAnnLine (l : List Char) : Bool :=
  !(decide (jsTrim l = [])) && !headerTest (jsTrim l) && !(decide ((jsTrim l).headD ' ' = '#'))

/-- The annotation the parser appends for an annotation line: the first
whitespace-separated token parsed as a float, the rest rejoined with single
spaces and trimmed, decoded through the sentinel rule. -/
def annOfLine (l : List Char) : Anno :=
  let pieces := splitSingle jsWs (jsTrim l)
  { time := parseFloat (pieces.headD []),
    text := decodeStr (jsTrim (joinSp pieces.tail)) }

/-- The annotations the parser produces from a list of lines containing no
header line. -/
def annsOfLines (lines : List (List Char)) : List Anno :=
  (lines.filter parserIsAnnLine).map annOfLine

/-! ## Time canonicalization

Serializing a time and parsing it back sends it through
`parseFloat(t.toFixed(6))`; the round-trip law holds up to this map. -/

/-- The serialize-reparse canonicalization of a time value. -/
def canonTime (t : JNum) : JNum :=
  parseFloat (toFixed6 t)

/-- Canonicalize every time of an annotation, keeping its text. -/
def canonAnno (a : Anno) : Anno :=
  { time := canonTime a.time, text := a.text }

/-- Canonicalize every time of a track, keeping its name. -/
def canonTrack (t : AnnotationTrack) : AnnotationTrack :=
  { track_name := t.track_name, annotations := t.annotations.map canonAnno }

/-- Canonicalize every time of a track sequence. -/
def canonTracks (ts : List AnnotationTrack) : List AnnotationTrack :=
  ts.map canonTrack

/-! ## Basic whitespace and trimming lemmas -/

theorem trimRight_eq_rdropWhile (l : List Char) : trimRight l = List.rdropWhile jsWs l := rfl

theorem trimRight_nil : trimRight [] = [] := rfl

theorem trimRight_cons {c : Char} (h : jsWs c = false) (l : List Char) :
    trimRight (c :: l) = c :: trimRight l := by
  unfold trimRight
  rw [show (c :: l).reverse = l.reverse ++ [c] from by simp, List.dropWhile_append]
  rcases he : l.reverse.dropWhile jsWs with _ | ⟨a, t⟩
  · simp [he, List.dropWhile_cons, h]
  · simp [he]

theorem trimRight_append_allws {b : List Char} (hb : ∀ c ∈ b, jsWs c = true)
    (a : List Char) : trimRight (a ++ b) = trimRight a := by
  induction b using List.reverseRecOn with
  | nil => simp
  | append_singleton b x ih =>
    rw [trimRight_eq_rdropWhile, show a ++ (b ++ [x]) = (a ++ b) ++ [x] from by simp,
      List.rdropWhile_concat_pos _ _ _ (hb x (by simp))]
    exact ih fun c hc => hb c (by simp [hc])

theorem trimRight_eq_self_of_getLast {b : List Char} (hne : b ≠ [])
    (h : jsWs (b.getLast hne) = false) : trimRight b = b := by
  rw [trimRight_eq_rdropWhile]
  exact List.rdropWhile_eq_self_iff.mpr fun _ => by simp [h]

theorem trimRight_eq_self_of_no_ws {l : List Char} (h : ∀ c ∈ l, jsWs c = false) :
    trimRight l = l := by
  cases l with
  | nil => rfl
  | cons a t => exact trimRight_eq_self_of_getLast (by simp) (h _ (List.getLast_mem _))

theorem trimRight_append_right {b : List Char} (hne : b ≠ [])
    (h : jsWs (b.getLast hne) = false) (a : List Char) :
    trimRight (a ++ b) = a ++ b := by
  rw [trimRight_eq_rdropWhile]
  refine List.rdropWhile_eq_self_iff.mpr fun hab => ?_
  rw [List.getLast_append_of_ne_nil hne]
  simp [h]

theorem mem_of_mem_trimRight {c : Char} {l : List Char} (h : c ∈ trimRight l) : c ∈ l := by
  rw [trimRight_eq_rdropWhile] at h
  exact List.rdropWhile_prefix jsWs l |>.subset h

theorem jsTrim_nil : jsTrim [] = [] := rfl

theorem jsTrim_cons_not_ws {c : Char} (h : jsWs c = false) (l : List Char) :
    jsTrim (c :: l) = c :: trimRight l := by
  unfold jsTrim
  rw [List.dropWhile_cons, if_neg (by simp [h]), trimRight_cons h]

theorem jsTrim_cons_ws {c : Char} (h : jsWs c = true) (l : List Char) :
    jsTrim (c :: l) = jsTrim l := by
  unfold jsTrim
  rw [List.dropWhile_cons, if_pos (by simp [h])]

theorem mem_of_mem_jsTrim {c : Char} {l : List Char} (h : c ∈ jsTrim l) : c ∈ l := by
  unfold jsTrim at h
  exact List.dropWhile_suffix jsWs |>.subset (mem_of_mem_trimRight h)

theorem jsTrim_eq_self_of_no_ws {l : List Char} (h : ∀ c ∈ l, jsWs c = false) :
    jsTrim l = l := by
  unfold jsTrim
  rw [List.dropWhile_eq_self_iff.mpr, trimRight_eq_self_of_no_ws h]
  intro hl
  have hm := List.get_mem l 0 hl
  simp only [List.get_eq_getElem] at hm
  simp [h _ hm]

theorem dropWhile_jsTrim (l : List Char) : (jsTrim l).dropWhile jsWs = jsTrim l := by
  unfold jsTrim
  rcases ht : trimRight (l.dropWhile jsWs) with _ | ⟨a, t⟩
  · simp
  · have hpre : trimRight (l.dropWhile jsWs) <+: l.dropWhile jsWs := by
      rw [trimRight_eq_rdropWhile]; exact List.rdropWhile_prefix _ _
    rw [ht] at hpre
    obtain ⟨s, hs⟩ := hpre
    have hd : l.dropWhile jsWs = a :: (t ++ s) := by rw [← hs]; simp
    have : jsWs a = false := by
      by_contra hws
      have h2 := List.dropWhile_idempotent (l := l) (p := jsWs)
      rw [hd, List.dropWhile_cons, if_pos (by simpa using hws)] at h2
      have hlen := congrArg List.length h2
      have h3 := (List.dropWhile_suffix (l := t ++ s) jsWs).length_le
      simp [List.length_append] at hlen h3
      omega
    rw [List.dropWhile_cons, if_neg (by simp [this])]

theorem jsTrim_idem (l : List Char) : jsTrim (jsTrim l) = jsTrim l := by
  conv_lhs => rw [jsTrim]
  rw [dropWhile_jsTrim]
  show trimRight (trimRight (l.dropWhile jsWs)) = _
  rw [trimRight_eq_rdropWhile, trimRight_eq_rdropWhile, List.rdropWhile_idempotent]
  rfl

/-! ## Splitting and joining lemmas -/

theorem splitSingle_ne_nil (p : Char → Bool) : ∀ l, splitSingle p l ≠ []
  | [] => by simp [splitSingle]
  | c :: rest => by
    simp only [splitSingle]
    split <;> simp

theorem splitSingle_cons_pos {p : Char → Bool} {c : Char} (h : p c = true) (l : List Char) :
    splitSingle p (c :: l) = [] :: splitSingle p l := by
  simp [splitSingle, h]

theorem splitSingle_cons_neg {p : Char → Bool} {c : Char} (h : p c = false) (l : List Char) :
    splitSingle p (c :: l) = (c :: (splitSingle p l).headD []) :: (splitSingle p l).tail := by
  simp [splitSingle, h]

theorem splitSingle_headD_tail (p : Char → Bool) (l : List Char) :
    (splitSingle p l).headD [] :: (splitSingle p l).tail = splitSingle p l := by
  cases h : splitSingle p l with
  | nil => exact absurd h (splitSingle_ne_nil p l)
  | cons a t => simp

theorem splitSingle_clean {p : Char → Bool} : ∀ {l : List Char}, (∀ c ∈ l, p c = false) →
    splitSingle p l = [l]
  | [], _ => rfl
  | c :: rest, h => by
    rw [splitSingle_cons_neg (h c (by simp)),
      splitSingle_clean (fun x hx => h x (by simp [hx]))]
    rfl

theorem splitSingle_clean_append {p : Char → Bool} {a : List Char} (ha : ∀ c ∈ a, p c = false)
    {c : Char} (hc : p c = true) (rest : List Char) :
    splitSingle p (a ++ c :: rest) = a :: splitSingle p rest := by
  induction a with
  | nil => simpa using splitSingle_cons_pos hc rest
  | cons x a ih =>
    rw [List.cons_append, splitSingle_cons_neg (ha x (by simp)),
      ih (fun y hy => ha y (by simp [hy]))]
    simp

theorem mem_splitSingle_flat {p : Char → Bool} : ∀ {l piece : List Char},
    piece ∈ splitSingle p l → ∀ c ∈ piece, c ∈ l ∧ p c = false := by
  intro l
  induction l with
  | nil =>
    intro piece hp c hc
    simp [splitSingle] at hp
    subst hp
    simp at hc
  | cons x rest ih =>
    intro piece hp c hc
    by_cases hx : p x
    · rw [splitSingle_cons_pos hx] at hp
      rcases List.mem_cons.mp hp with h | h
      · subst h; simp at hc
      · have := ih h c hc
        exact ⟨by simp [this.1], this.2⟩
    · rw [splitSingle_cons_neg (by simpa using hx)] at hp
      rcases List.mem_cons.mp hp with h | h
      · subst h
        rcases List.mem_cons.mp hc with h2 | h2
        · subst h2
          exact ⟨by simp, by simpa using hx⟩
        · have hmem : (splitSingle p rest).headD [] ∈ splitSingle p rest := by
            have h0 : (splitSingle p rest).headD [] ∈
                (splitSingle p rest).headD [] :: (splitSingle p rest).tail :=
              List.mem_cons_self _ _
            rwa [splitSingle_headD_tail] at h0
          have := ih hmem c h2
          exact ⟨by simp [this.1], this.2⟩
      · have hmem : piece ∈ splitSingle p rest := by
          rw [← splitSingle_headD_tail p rest]
          exact List.mem_cons_of_mem _ h
        have := ih hmem c hc
        exact ⟨by simp [this.1], this.2⟩

theorem joinSp_cons_head (c : Char) (h0 : List Char) (tail : List (List Char)) :
    joinSp ((c :: h0) :: tail) = c :: joinSp (h0 :: tail) := by
  cases tail <;> rfl

theorem joinSp_nil_head (h0 : List Char) (tail : List (List Char)) :
    joinSp ([] :: h0 :: tail) = ' ' :: joinSp (h0 :: tail) := rfl

theorem joinSp_splitSingle_jsWs : ∀ {l : List Char}, (∀ c ∈ l, jsWs c = true → c = ' ') →
    joinSp (splitSingle jsWs l) = l := by
  intro l
  induction l with
  | nil => intro _; rfl
  | cons c rest ih =>
    intro h
    by_cases hc : jsWs c
    · have hcsp : c = ' ' := h c (by simp) hc
      rw [splitSingle_cons_pos hc, ← splitSingle_headD_tail jsWs rest, joinSp_nil_head,
        splitSingle_headD_tail jsWs rest, ih (fun x hx hwx => h x (by simp [hx]) hwx), hcsp]
    · rw [splitSingle_cons_neg (by simpa using hc), joinSp_cons_head,
        splitSingle_headD_tail jsWs rest, ih (fun x hx hwx => h x (by simp [hx]) hwx)]

theorem splitNl_joinNl : ∀ {pieces : List (List Char)}, pieces ≠ [] →
    (∀ piece ∈ pieces, '\n' ∉ piece) → splitNl (joinNl pieces) = pieces
  | [], h, _ => absurd rfl h
  | [x], _, hnl => by
    show splitSingle _ x = [x]
    exact splitSingle_clean fun c hc => by
      simpa using fun (hcn : c = '\n') => hnl x (by simp) (hcn ▸ hc)
  | x :: y :: t, _, hnl => by
    show splitSingle _ (x ++ '\n' :: joinNl (y :: t)) = _
    rw [splitSingle_clean_append
      (fun c hc => by simpa using fun (hcn : c = '\n') => hnl x (by simp) (hcn ▸ hc))
      (by simp) (joinNl (y :: t))]
    have := @splitNl_joinNl (y :: t) (by simp)
      (fun piece hp => hnl piece (by simp [hp]))
    rw [show splitSingle (fun c => decide (c = '\n')) (joinNl (y :: t)) = splitNl (joinNl (y :: t)) from rfl, this]

/-! ## Character facts about rendered numbers -/

/-- The decimal digit characters. -/
def digitChars : List Char := "0123456789".toList

/-- Every character a rendered number can contain. -/
def numChars : List Char := "0123456789.-NaInfity".toList

theorem digitChar_mem {d : Nat} (h : d < 10) : digitChar d ∈ digitChars := by
  interval_cases d <;> decide

theorem digitChars_facts :
    ∀ c ∈ digitChars, jsWs c = false ∧ c.toLower ≠ 't' ∧ c ≠ '#' ∧ c ≠ ':' ∧
      c ≠ '␀' ∧ c ≠ '\n' ∧ c.isDigit = true := by decide

theorem numChars_facts : ∀ c ∈ numChars, jsWs c = false ∧ c ≠ '\n' ∧ c ≠ '#' := by decide

theorem digitChars_sub_numChars : ∀ c ∈ digitChars, c ∈ numChars := by decide

theorem natDigitsAux_mem : ∀ {fuel n : Nat} {c : Char}, c ∈ natDigitsAux fuel n → c ∈ digitChars := by
  intro fuel
  induction fuel with
  | zero => intro n c h; simp [natDigitsAux] at h
  | succ fuel ih =>
    intro n c h
    rw [natDigitsAux] at h
    by_cases hn : n < 10
    · rw [if_pos hn] at h
      simp at h
      exact h ▸ digitChar_mem hn
    · rw [if_neg hn] at h
      rcases List.mem_append.mp h with h2 | h2
      · exact ih h2
      · simp at h2
        exact h2 ▸ digitChar_mem (Nat.mod_lt n (by omega))

theorem natDigits_mem {n : Nat} {c : Char} (h : c ∈ natDigits n) : c ∈ digitChars :=
  natDigitsAux_mem h

theorem natDigits_ne_nil (n : Nat) : natDigits n ≠ [] := by
  unfold natDigits natDigitsAux
  split <;> simp

theorem natDigits_head (n : Nat) : ∃ c r, natDigits n = c :: r ∧ c ∈ digitChars := by
  cases h : natDigits n with
  | nil => exact absurd h (natDigits_ne_nil n)
  | cons c r => exact ⟨c, r, rfl, natDigits_mem (h ▸ List.mem_cons_self c r)⟩

theorem pad6_mem {k : Nat} {c : Char} (h : c ∈ pad6 k) : c ∈ digitChars := by
  unfold pad6 at h
  rcases List.mem_append.mp h with h2 | h2
  · rw [List.eq_of_mem_replicate h2]; decide
  · exact natDigits_mem h2

theorem fracDigits20_mem {m p : Nat} {c : Char} (h : c ∈ fracDigits20 m p) :
    c ∈ digitChars := by
  unfold fracDigits20 at h
  simp only [List.mem_reverse] at h
  have h2 := (List.dropWhile_suffix (fun c => decide (c = '0'))).subset h
  simp only [List.mem_reverse] at h2
  rcases List.mem_append.mp h2 with h3 | h3
  · rw [List.eq_of_mem_replicate h3]; decide
  · exact natDigits_mem h3

theorem jsToStringDec_mem {d : Dec} {c : Char} (h : c ∈ jsToStringDec d) : c ∈ numChars := by
  have hsign : ∀ x ∈ (if d.mant < 0 then ['-'] else ([] : List Char)), x ∈ numChars := by
    split <;> decide
  simp only [jsToStringDec] at h
  split at h
  · rcases List.mem_append.mp h with h2 | h2
    · exact hsign _ h2
    · exact digitChars_sub_numChars _ (natDigits_mem h2)
  · rcases List.mem_append.mp h with h2 | h2
    · rcases List.mem_append.mp h2 with h3 | h3
      · exact hsign _ h3
      · exact digitChars_sub_numChars _ (natDigits_mem h3)
    · rcases List.mem_cons.mp h2 with h3 | h3
      · subst h3; decide
      · exact digitChars_sub_numChars _ (fracDigits20_mem h3)

theorem jsToString_mem {j : JNum} {c : Char} (h : c ∈ jsToString j) : c ∈ numChars := by
  cases j with
  | nan =>
    simp only [jsToString] at h
    exact (by decide : ∀ x ∈ ("NaN".toList : List Char), x ∈ numChars) _ h
  | inf b =>
    simp only [jsToString] at h
    rcases List.mem_append.mp h with h2 | h2
    · have hb : ∀ x ∈ (if b then ['-'] else ([] : List Char)), x ∈ numChars := by
        cases b <;> decide
      exact hb _ h2
    · exact (by decide : ∀ x ∈ ("Infinity".toList : List Char), x ∈ numChars) _ h2
  | num d => exact jsToStringDec_mem h

theorem toFixed6_mem {t : JNum} {c : Char} (h : c ∈ toFixed6 t) : c ∈ numChars := by
  cases t with
  | nan =>
    simp only [toFixed6] at h
    exact (by decide : ∀ x ∈ ("NaN".toList : List Char), x ∈ numChars) _ h
  | inf b =>
    simp only [toFixed6] at h
    rcases List.mem_append.mp h with h2 | h2
    · have hb : ∀ x ∈ (if b then ['-'] else ([] : List Char)), x ∈ numChars := by
        cases b <;> decide
      exact hb _ h2
    · exact (by decide : ∀ x ∈ ("Infinity".toList : List Char), x ∈ numChars) _ h2
  | num d =>
    have hsign : ∀ x ∈ (if d.mant < 0 then ['-'] else ([] : List Char)), x ∈ numChars := by
      split <;> decide
    simp only [toFixed6] at h
    split at h
    · rcases List.mem_append.mp h with h2 | h2
      · exact hsign _ h2
      · exact jsToStringDec_mem h2
    · rcases List.mem_append.mp h with h2 | h2
      · rcases List.mem_append.mp h2 with h3 | h3
        · exact hsign _ h3
        · exact digitChars_sub_numChars _ (natDigits_mem h3)
      · rcases List.mem_cons.mp h2 with h3 | h3
        · subst h3; decide
        · exact digitChars_sub_numChars _ (pad6_mem h3)

/-! ## Head shape of rendered numbers, header-test lemmas -/

theorem ciStrip_cons_ne {p c : Char} {ps : List Char} (h : c.toLower ≠ p) (cs : List Char) :
    ciStrip (p :: ps) (c :: cs) = none := by
  unfold ciStrip
  rw [if_neg h]

theorem headerTest_nil : headerTest [] = false := rfl

theorem headerTest_none {l : List Char} (h : ciStrip ("trackname".toList) l = none) :
    headerTest l = false := by
  unfold headerTest
  rw [h]

theorem headerTest_some {l rest : List Char} (h : ciStrip ("trackname".toList) l = some rest) :
    headerTest l = decide ((rest.dropWhile jsWs).headD ' ' = ':') := by
  unfold headerTest
  rw [h]

theorem headerTest_cons_ne {c : Char} (h : c.toLower ≠ 't') (rest : List Char) :
    headerTest (c :: rest) = false :=
  headerTest_none (by
    rw [show ("trackname".toList : List Char) = 't' :: "rackname".toList from by decide]
    exact ciStrip_cons_ne h rest)

theorem jsToStringDec_head_nonneg {d : Dec} (hq : ¬ d.mant < 0) :
    ∃ c r, jsToStringDec d = c :: r ∧ c ∈ digitChars := by
  obtain ⟨c, r, hnr, hc⟩ := natDigits_head (d.mant.natAbs / 10 ^ d.exp)
  simp only [jsToStringDec, if_neg hq]
  split
  · exact ⟨c, r, by rw [hnr]; simp, hc⟩
  · exact ⟨c, r ++ '.' :: fracDigits20 d.mant.natAbs (10 ^ d.exp), by rw [hnr]; simp, hc⟩

theorem toFixed6_head (t : JNum) :
    ∃ c r, toFixed6 t = c :: r ∧ c.toLower ≠ 't' ∧ c ≠ '#' ∧ jsWs c = false := by
  cases t with
  | nan => exact ⟨'N', ['a', 'N'], rfl, by decide, by decide, by decide⟩
  | inf b =>
    cases b
    · exact ⟨'I', "nfinity".toList, rfl, by decide, by decide, by decide⟩
    · exact ⟨'-', "Infinity".toList, rfl, by decide, by decide, by decide⟩
  | num d =>
    simp only [toFixed6]
    by_cases hq : d.mant < 0
    · rw [if_pos hq]
      split
      · exact ⟨'-', _, rfl, by decide, by decide, by decide⟩
      · exact ⟨'-', _, rfl, by decide, by decide, by decide⟩
    · rw [if_neg hq]
      split
      · obtain ⟨c, r, hcr, hc⟩ := jsToStringDec_head_nonneg
          (d := ⟨(d.mant.natAbs : Int), d.exp⟩) (by simp)
        have hf := digitChars_facts c hc
        exact ⟨c, r, by rw [List.nil_append, hcr], hf.2.1, hf.2.2.1, hf.1⟩
      · obtain ⟨c, r, hcr, hc⟩ := natDigits_head
          ((2 * d.mant.natAbs * 10 ^ (6 : Nat) + 10 ^ d.exp) / (2 * 10 ^ d.exp) / 10 ^ (6 : Nat))
        have hf := digitChars_facts c hc
        refine ⟨c, r ++ '.' :: pad6
          ((2 * d.mant.natAbs * 10 ^ (6 : Nat) + 10 ^ d.exp) / (2 * 10 ^ d.exp) % 10 ^ (6 : Nat)),
          ?_, hf.2.1, hf.2.2.1, hf.1⟩
        rw [hcr]
        simp

/-! ## Parser branch lemmas -/

theorem toFixed6_no_ws {t : JNum} : ∀ c ∈ toFixed6 t, jsWs c = false :=
  fun c h => (numChars_facts c (toFixed6_mem h)).1

theorem jsToString_no_ws {j : JNum} : ∀ c ∈ jsToString j, jsWs c = false :=
  fun c h => (numChars_facts c (jsToString_mem h)).1

theorem processLine_blank {st : ParseState} {l : List Char} (h : jsTrim l = []) :
    processLine st l = st := by
  simp only [processLine]
  rw [if_pos h]

theorem processLine_header {st : ParseState} {l : List Char}
    (h0 : jsTrim l ≠ []) (h1 : headerTest (jsTrim l) = true) :
    processLine st l = ⟨st.out ++ st.cur.toList,
      some ⟨decodeStr (jsTrim ((splitSingle (fun c => c = ':') (jsTrim l)).getD 1 [])), []⟩⟩ := by
  simp only [processLine]
  rw [if_neg h0, if_pos (by simp [h1])]

theorem processLine_comment {st : ParseState} {l : List Char}
    (h0 : jsTrim l ≠ []) (h1 : headerTest (jsTrim l) = false)
    (h2 : (jsTrim l).headD ' ' = '#') :
    processLine st l = st := by
  simp only [processLine]
  rw [if_neg h0, if_neg (by simp [h1]), if_pos h2]

theorem processLine_ann {st : ParseState} {l : List Char}
    (h0 : jsTrim l ≠ []) (h1 : headerTest (jsTrim l) = false)
    (h2 : ¬ (jsTrim l).headD ' ' = '#') :
    processLine st l = ⟨st.out,
      some ⟨(st.cur.getD ⟨none, []⟩).track_name,
        (st.cur.getD ⟨none, []⟩).annotations ++ [annOfLine l]⟩⟩ := by
  simp only [processLine, annOfLine]
  rw [if_neg h0, if_neg (by simp [h1]), if_neg h2]

theorem processLine_out_cur (o : List AnnotationTrack) (c : Option AnnotationTrack) (l : List Char) :
    (processLine ⟨o, c⟩ l).out = o ++ (processLine ⟨[], c⟩ l).out ∧
    (processLine ⟨o, c⟩ l).cur = (processLine ⟨[], c⟩ l).cur := by
  by_cases h0 : jsTrim l = []
  · rw [processLine_blank h0, processLine_blank h0]; simp
  by_cases h1 : headerTest (jsTrim l) = true
  · rw [processLine_header h0 h1, processLine_header h0 h1]; simp
  by_cases h2 : (jsTrim l).headD ' ' = '#'
  · rw [processLine_comment h0 (by simpa using h1) h2,
      processLine_comment h0 (by simpa using h1) h2]
    simp
  · rw [processLine_ann h0 (by simpa using h1) h2,
      processLine_ann h0 (by simpa using h1) h2]
    simp

theorem foldl_processLine_split (lines : List (List Char)) :
    ∀ (o : List AnnotationTrack) (c : Option AnnotationTrack),
    lines.foldl processLine ⟨o, c⟩ =
      ⟨o ++ (lines.foldl processLine ⟨[], c⟩).out, (lines.foldl processLine ⟨[], c⟩).cur⟩ := by
  induction lines with
  | nil => intro o c; simp
  | cons l rest ih =>
    intro o c
    simp only [List.foldl_cons]
    obtain ⟨ho, hc⟩ := processLine_out_cur o c l
    have hst : processLine ⟨o, c⟩ l =
        ⟨o ++ (processLine ⟨[], c⟩ l).out, (processLine ⟨[], c⟩ l).cur⟩ := by
      cases hpe : processLine ⟨o, c⟩ l with
      | mk a b =>
        rw [hpe] at ho hc
        simp only at ho hc
        simp [ho, hc]
    rw [hst]
    cases hq : processLine ⟨[], c⟩ l with
    | mk a2 b2 =>
      simp only
      rw [ih (o ++ a2) b2, ih a2 b2]
      simp

/-! ## Invariants of parsed names and texts -/

/-- What the parser guarantees about a track name it produced: trim-fixed,
colon-free (it is a `split(':')` segment), newline-free, and never the
literal sentinel. -/
def NameOk : Option (List Char) → Prop
  | none => True
  | some s => jsTrim s = s ∧ ':' ∉ s ∧ '\n' ∉ s ∧ s ≠ NULL_STR

/-- What the parser guarantees about an annotation text it produced:
trim-fixed, every whitespace character in it is a plain space (the text was
rejoined with single spaces), and never the literal sentinel. -/
def TextOk : Option (List Char) → Prop
  | none => True
  | some s => jsTrim s = s ∧ (∀ c ∈ s, jsWs c = true → c = ' ') ∧ s ≠ NULL_STR

/-- Parser invariant for a whole track. -/
def TrackOk (t : AnnotationTrack) : Prop :=
  NameOk t.track_name ∧ ∀ a ∈ t.annotations, TextOk a.text

instance (o : Option (List Char)) : Decidable (NameOk o) :=
  match o with
  | none => Decidable.isTrue trivial
  | some s => inferInstanceAs (Decidable (jsTrim s = s ∧ ':' ∉ s ∧ '\n' ∉ s ∧ s ≠ NULL_STR))

instance (o : Option (List Char)) : Decidable (TextOk o) :=
  match o with
  | none => Decidable.isTrue trivial
  | some s =>
    inferInstanceAs (Decidable (jsTrim s = s ∧ (∀ c ∈ s, jsWs c = true → c = ' ') ∧ s ≠ NULL_STR))

instance (t : AnnotationTrack) : Decidable (TrackOk t) :=
  inferInstanceAs (Decidable (_ ∧ _))

theorem jsTrim_fix_parts {s : List Char} (h : jsTrim s = s) :
    s.dropWhile jsWs = s ∧ trimRight s = s := by
  have h2 : (trimRight (s.dropWhile jsWs)).length ≤ (s.dropWhile jsWs).length := by
    rw [trimRight_eq_rdropWhile]
    exact (List.rdropWhile_prefix _ _).sublist.length_le
  have h3 : (jsTrim s).length = s.length := by rw [h]
  unfold jsTrim at h3
  have h4 : s.dropWhile jsWs = s :=
    (List.dropWhile_suffix jsWs).sublist.eq_of_length (by
      have := (List.dropWhile_suffix (l := s) jsWs).sublist.length_le
      omega)
  refine ⟨h4, ?_⟩
  have h5 := h
  unfold jsTrim at h5
  rw [h4] at h5
  exact h5

theorem head_not_ws_of_trim_fix {c : Char} {t : List Char} (h : jsTrim (c :: t) = c :: t) :
    jsWs c = false := by
  have h4 := (jsTrim_fix_parts h).1
  by_contra hws
  rw [List.dropWhile_cons, if_pos (by simpa using hws)] at h4
  have := (List.dropWhile_suffix (l := t) jsWs).sublist.length_le
  have := congrArg List.length h4
  simp at this
  omega

theorem getLast_not_ws_of_trim_fix {s : List Char} (h : jsTrim s = s) (hne : s ≠ []) :
    jsWs (s.getLast hne) = false := by
  have h5 := (jsTrim_fix_parts h).2
  rw [trimRight_eq_rdropWhile] at h5
  simpa using List.rdropWhile_eq_self_iff.mp h5 hne

theorem NULL_STR_trim : jsTrim NULL_STR = NULL_STR := by decide

theorem encodeOptStr_facts {name : Option (List Char)} (h : NameOk name) :
    jsTrim (encodeOptStr name) = encodeOptStr name ∧ ':' ∉ encodeOptStr name := by
  cases name with
  | none => exact ⟨NULL_STR_trim, by decide⟩
  | some s =>
    obtain ⟨h1, h2, _, _⟩ := h
    exact ⟨by simp [encodeOptStr, h1], by simpa [encodeOptStr, h1] using h2⟩

theorem ciStrip_trackName (rest : List Char) :
    ciStrip ("trackname".toList) ("trackName".toList ++ rest) = some rest := by
  rw [show ("trackname".toList : List Char) = ['t','r','a','c','k','n','a','m','e'] from by decide,
    show ("trackName".toList : List Char) = ['t','r','a','c','k','N','a','m','e'] from by decide]
  simp only [List.cons_append, ciStrip]
  rw [if_pos (by decide), if_pos (by decide), if_pos (by decide), if_pos (by decide),
    if_pos (by decide), if_pos (by decide), if_pos (by decide), if_pos (by decide),
    if_pos (by decide)]
  simp

theorem NameOk_some {s : List Char} (h : NameOk (some s)) :
    jsTrim s = s ∧ ':' ∉ s ∧ '\n' ∉ s ∧ s ≠ NULL_STR := h

theorem TextOk_some {s : List Char} (h : TextOk (some s)) :
    jsTrim s = s ∧ (∀ c ∈ s, jsWs c = true → c = ' ') ∧ s ≠ NULL_STR := h

/-! ## The parser on serializer-produced lines -/

theorem processLine_trackName (st : ParseState) (name : Option (List Char)) (h : NameOk name) :
    processLine st ("trackName: ".toList ++ encodeOptStr name) =
      ⟨st.out ++ st.cur.toList, some ⟨name, []⟩⟩ := by
  obtain ⟨henc, hcol⟩ := encodeOptStr_facts h
  by_cases hnil : encodeOptStr name = []
  · have hname : name = some ([] : List Char) := by
      cases name with
      | none => exact absurd hnil (by decide)
      | some s =>
        obtain ⟨h1, _, _, _⟩ := NameOk_some h
        simp only [encodeOptStr, h1] at hnil
        simp [hnil]
    have htr : jsTrim ("trackName: ".toList ++ encodeOptStr name) = "trackName:".toList := by
      rw [hnil]
      decide
    rw [processLine_header (by rw [htr]; decide) (by rw [htr]; decide)]
    rw [htr]
    rw [show splitSingle (fun c => c = ':') ("trackName:".toList) =
      ["trackName".toList, []] from by decide]
    rw [hname]
    rfl
  · have hlast : jsWs ((encodeOptStr name).getLast hnil) = false :=
      getLast_not_ws_of_trim_fix henc hnil
    have hshape : ("trackName: ".toList ++ encodeOptStr name) =
        "trackName".toList ++ (':' :: ' ' :: encodeOptStr name) := by
      rw [show ("trackName: ".toList : List Char) = "trackName".toList ++ [':', ' '] from by decide]
      simp
    have hdrop : List.dropWhile jsWs ("trackName: ".toList ++ encodeOptStr name) =
        "trackName: ".toList ++ encodeOptStr name := by
      rw [show ("trackName: ".toList : List Char) = 't' :: "rackName: ".toList from by decide,
        List.cons_append, List.dropWhile_cons, if_neg (by decide)]
    have htr : jsTrim ("trackName: ".toList ++ encodeOptStr name) =
        "trackName: ".toList ++ encodeOptStr name := by
      unfold jsTrim
      rw [hdrop]
      exact trimRight_append_right hnil hlast _
    have hht : headerTest ("trackName: ".toList ++ encodeOptStr name) = true := by
      rw [headerTest_some (by rw [hshape]; exact ciStrip_trackName _),
        List.dropWhile_cons, if_neg (by decide)]
      simp
    have hsplit : splitSingle (fun c => c = ':') ("trackName: ".toList ++ encodeOptStr name) =
        ["trackName".toList, ' ' :: encodeOptStr name] := by
      rw [hshape]
      rw [splitSingle_clean_append (by decide) (by decide)]
      rw [splitSingle_clean]
      intro c hc
      rcases List.mem_cons.mp hc with h2 | h2
      · subst h2; decide
      · simpa using fun (h3 : c = ':') => hcol (h3 ▸ h2)
    rw [processLine_header (by rw [htr]; simp [hnil]) (by rw [htr]; exact hht)]
    rw [htr, hsplit]
    rw [show (([ "trackName".toList, ' ' :: encodeOptStr name] : List (List Char))).getD 1 [] =
      ' ' :: encodeOptStr name from rfl]
    rw [jsTrim_cons_ws (by decide), henc]
    cases name with
    | none => rfl
    | some s =>
      obtain ⟨h1, _, _, h4⟩ := NameOk_some h
      simp only [encodeOptStr, h1, decodeStr, if_neg h4]

theorem trimRight_append_right2 {b : List Char} {c : Char} {t : List Char}
    (hrev : b.reverse = c :: t) (hc : jsWs c = false) (a : List Char) :
    trimRight (a ++ b) = a ++ b := by
  unfold trimRight
  rw [List.reverse_append, hrev, List.cons_append, List.dropWhile_cons, if_neg (by simp [hc]),
    ← List.cons_append, ← hrev, ← List.reverse_append, List.reverse_reverse]

theorem rev_head_not_ws_of_trim_fix {s : List Char} (h : jsTrim s = s) (hne : s ≠ []) :
    ∃ c t, s.reverse = c :: t ∧ jsWs c = false := by
  have h5 := (jsTrim_fix_parts h).2
  unfold trimRight at h5
  cases hr : s.reverse with
  | nil =>
    exact absurd (by simpa using congrArg List.reverse hr) hne
  | cons c t =>
    refine ⟨c, t, rfl, ?_⟩
    by_contra hws
    rw [hr, List.dropWhile_cons, if_pos (by simpa using hws)] at h5
    have hlen := congrArg List.length h5
    have h6 := (List.dropWhile_suffix (l := t) jsWs).sublist.length_le
    have h7 : s.length = t.length + 1 := by
      have h8 := congrArg List.length hr
      simpa using h8
    simp at hlen
    omega

theorem processLine_annLine (st : ParseState) (a : Anno) (h : TextOk a.text) :
    processLine st (annLine a) = ⟨st.out,
      some ⟨(st.cur.getD ⟨none, []⟩).track_name,
        (st.cur.getD ⟨none, []⟩).annotations ++ [canonAnno a]⟩⟩ := by
  obtain ⟨c0, r0, hcr, hnt, hnh, hnws⟩ := toFixed6_head a.time
  have hfix : ∀ c ∈ toFixed6 a.time, jsWs c = false := toFixed6_no_ws
  have hd : List.dropWhile jsWs (toFixed6 a.time ++ ' ' :: encodeOptStr a.text) =
      toFixed6 a.time ++ ' ' :: encodeOptStr a.text := by
    rw [hcr, List.cons_append, List.dropWhile_cons, if_neg (by simp [hnws]),
      ← List.cons_append, ← hcr]
  by_cases hnil : encodeOptStr a.text = []
  · have htext : a.text = some ([] : List Char) := by
      cases htx : a.text with
      | none => rw [htx] at hnil; exact absurd hnil (by decide)
      | some s =>
        rw [htx] at hnil
        obtain ⟨h1, _, _⟩ := TextOk_some (htx ▸ h)
        simp only [encodeOptStr, h1] at hnil
        simp [hnil]
    have htr : jsTrim (annLine a) = toFixed6 a.time := by
      show jsTrim (toFixed6 a.time ++ ' ' :: encodeOptStr a.text) = _
      unfold jsTrim
      rw [hd, hnil]
      rw [trimRight_append_allws (by decide : ∀ c ∈ ([' '] : List Char), jsWs c = true)
        (toFixed6 a.time)]
      exact trimRight_eq_self_of_no_ws hfix
    rw [processLine_ann (by rw [htr, hcr]; simp)
      (by rw [htr, hcr]; exact headerTest_cons_ne hnt r0)
      (by rw [htr, hcr]; simpa using hnh)]
    have hann : annOfLine (annLine a) = canonAnno a := by
      unfold annOfLine
      rw [htr, splitSingle_clean hfix]
      show (⟨parseFloat (toFixed6 a.time), decodeStr (jsTrim (joinSp []))⟩ : Anno) = canonAnno a
      rw [show decodeStr (jsTrim (joinSp ([] : List (List Char)))) = some [] from by decide]
      unfold canonAnno canonTime
      rw [htext]
    rw [hann]
  · have hrev : ∃ c t, (encodeOptStr a.text).reverse = c :: t ∧ jsWs c = false := by
      cases htx : a.text with
      | none => exact ⟨'␀', [], by decide, by decide⟩
      | some s =>
        have h1 := (TextOk_some (htx ▸ h)).1
        have hsne : s ≠ [] := by
          intro hs
          rw [htx] at hnil
          simp only [encodeOptStr, hs] at hnil
          exact hnil jsTrim_nil
        obtain ⟨c, t, hct, hc⟩ := rev_head_not_ws_of_trim_fix h1 hsne
        refine ⟨c, t, ?_, hc⟩
        simpa [encodeOptStr, h1] using hct
    obtain ⟨cL, tL, hrevEq, hcL⟩ := hrev
    have htr : jsTrim (annLine a) = annLine a := by
      show jsTrim (toFixed6 a.time ++ ' ' :: encodeOptStr a.text) = _
      unfold jsTrim
      rw [hd]
      rw [show toFixed6 a.time ++ ' ' :: encodeOptStr a.text =
        (toFixed6 a.time ++ [' ']) ++ encodeOptStr a.text from by simp]
      rw [trimRight_append_right2 hrevEq hcL]
      simp [annLine]
    rw [processLine_ann
      (by rw [htr]; show ¬ toFixed6 a.time ++ _ = []; rw [hcr]; simp)
      (by rw [htr]; show headerTest (toFixed6 a.time ++ _) = false
          rw [hcr, List.cons_append]; exact headerTest_cons_ne hnt _)
      (by rw [htr]; show ¬ (toFixed6 a.time ++ _).headD ' ' = '#'
          rw [hcr, List.cons_append]; simpa using hnh)]
    have hann : annOfLine (annLine a) = canonAnno a := by
      unfold annOfLine
      rw [htr]
      show (⟨parseFloat ((splitSingle jsWs (toFixed6 a.time ++ ' ' :: encodeOptStr a.text)).headD []),
        decodeStr (jsTrim (joinSp ((splitSingle jsWs
          (toFixed6 a.time ++ ' ' :: encodeOptStr a.text)).tail)))⟩ : Anno) = canonAnno a
      rw [splitSingle_clean_append hfix (by decide) (encodeOptStr a.text)]
      show (⟨parseFloat (toFixed6 a.time),
        decodeStr (jsTrim (joinSp (splitSingle jsWs (encodeOptStr a.text))))⟩ : Anno) = canonAnno a
      unfold canonAnno canonTime
      cases htx : a.text with
      | none =>
        rw [show decodeStr (jsTrim (joinSp (splitSingle jsWs (encodeOptStr none)))) = none from
          by decide]
      | some s =>
        obtain ⟨h1, h2, h3⟩ := TextOk_some (htx ▸ h)
        show (⟨parseFloat (toFixed6 a.time),
          decodeStr (jsTrim (joinSp (splitSingle jsWs (jsTrim s))))⟩ : Anno) = _
        rw [h1, joinSp_splitSingle_jsWs h2, h1]
        simp [decodeStr, h3]
    rw [hann]

theorem processLine_nil (st : ParseState) : processLine st [] = st :=
  processLine_blank rfl

theorem processLine_comment_line (st : ParseState) (rest : List Char) :
    processLine st ('#' :: rest) = st := by
  have htr : jsTrim ('#' :: rest) = '#' :: trimRight rest := jsTrim_cons_not_ws (by decide) rest
  exact processLine_comment (by simp [htr])
    (by rw [htr]; exact headerTest_cons_ne (by decide) _) (by simp [htr])

theorem foldl_annLines (anns : List Anno) : ∀ (h : ∀ a ∈ anns, TextOk a.text)
    (o : List AnnotationTrack) (name : Option (List Char)) (acc : List Anno),
    (anns.map annLine).foldl processLine ⟨o, some ⟨name, acc⟩⟩ =
      ⟨o, some ⟨name, acc ++ anns.map canonAnno⟩⟩ := by
  induction anns with
  | nil => intro h o name acc; simp
  | cons a anns ih =>
    intro h o name acc
    simp only [List.map_cons, List.foldl_cons]
    rw [processLine_annLine _ a (h a (by simp))]
    simp only [Option.getD_some]
    rw [ih (fun x hx => h x (by simp [hx])) o name (acc ++ [canonAnno a])]
    simp

theorem foldl_trackLines (ts : List AnnotationTrack) : ∀ (h : ∀ t ∈ ts, TrackOk t)
    (o : List AnnotationTrack) (c : Option AnnotationTrack),
    (((ts.map trackLines).flatten).foldl processLine ⟨o, c⟩).out ++
      (((ts.map trackLines).flatten).foldl processLine ⟨o, c⟩).cur.toList =
      o ++ c.toList ++ canonTracks ts := by
  induction ts with
  | nil => intro h o c; simp [canonTracks]
  | cons t ts ih =>
    intro h o c
    simp only [List.map_cons, List.flatten_cons, List.foldl_append]
    rw [show trackLines t = [] :: ("trackName: ".toList ++ encodeOptStr t.track_name)
      :: ("# numAnnotations: ".toList ++ natDigits t.annotations.length)
      :: t.annotations.map annLine from rfl]
    simp only [List.foldl_cons]
    rw [processLine_nil, processLine_trackName _ _ (h t (by simp)).1]
    rw [show ("# numAnnotations: ".toList ++ natDigits t.annotations.length) =
      '#' :: (" numAnnotations: ".toList ++ natDigits t.annotations.length) from by
        rw [show ("# numAnnotations: ".toList : List Char) =
          '#' :: " numAnnotations: ".toList from by decide, List.cons_append]]
    rw [processLine_comment_line]
    rw [foldl_annLines t.annotations (fun a ha => (h t (by simp)).2 a ha) _ _ _]
    rw [ih (fun x hx => h x (by simp [hx])) (o ++ c.toList) (some ⟨t.track_name, []
      ++ t.annotations.map canonAnno⟩)]
    simp [canonTracks, canonTrack]

theorem no_nl_of_no_ws {l : List Char} (h : ∀ c ∈ l, jsWs c = false) : '\n' ∉ l :=
  fun hm => absurd (h _ hm) (by decide)

theorem hkannoLines_no_nl (h : Hkanno) (hok : ∀ t ∈ h.annotation_tracks, TrackOk t) :
    ∀ piece ∈ hkannoLines h, '\n' ∉ piece := by
  have hcomment : ∀ (pre : List Char), '\n' ∉ pre → ∀ (j : JNum), '\n' ∉ pre ++ jsToString j := by
    intro pre hpre j hm
    rcases List.mem_append.mp hm with h1 | h1
    · exact hpre h1
    · exact no_nl_of_no_ws jsToString_no_ws h1
  have hnat : ∀ (pre : List Char), '\n' ∉ pre → ∀ (n : Nat), '\n' ∉ pre ++ natDigits n := by
    intro pre hpre n hm
    rcases List.mem_append.mp hm with h1 | h1
    · exact hpre h1
    · exact absurd rfl ((digitChars_facts _ (natDigits_mem h1)).2.2.2.2.2.1)
  have henc : ∀ (name : Option (List Char)), NameOk name → '\n' ∉ encodeOptStr name := by
    intro name hn hm
    cases name with
    | none => revert hm; decide
    | some s =>
      obtain ⟨h1, _, h3, _⟩ := NameOk_some hn
      rw [show encodeOptStr (some s) = jsTrim s from rfl, h1] at hm
      exact h3 hm
  have htxt : ∀ (text : Option (List Char)), TextOk text → '\n' ∉ encodeOptStr text := by
    intro text ht hm
    cases text with
    | none => revert hm; decide
    | some s =>
      obtain ⟨h1, h2, _⟩ := TextOk_some ht
      rw [show encodeOptStr (some s) = jsTrim s from rfl, h1] at hm
      have := h2 _ hm (by decide)
      exact absurd this (by decide)
  intro piece hp
  unfold hkannoLines at hp
  rcases List.mem_cons.mp hp with h1 | hp
  · exact h1 ▸ hcomment _ (by decide) _
  rcases List.mem_cons.mp hp with h1 | hp
  · exact h1 ▸ hcomment _ (by decide) _
  rcases List.mem_cons.mp hp with h1 | hp
  · exact h1 ▸ hnat _ (by decide) _
  obtain ⟨block, hblock, hpiece⟩ := List.mem_flatten.mp hp
  obtain ⟨t, ht, hbt⟩ := List.mem_map.mp hblock
  subst hbt
  rw [show trackLines t = [] :: ("trackName: ".toList ++ encodeOptStr t.track_name)
    :: ("# numAnnotations: ".toList ++ natDigits t.annotations.length)
    :: t.annotations.map annLine from rfl] at hpiece
  rcases List.mem_cons.mp hpiece with h1 | hpiece
  · subst h1; simp
  rcases List.mem_cons.mp hpiece with h1 | hpiece
  · subst h1
    intro hm
    rcases List.mem_append.mp hm with h2 | h2
    · revert h2; decide
    · exact henc _ (hok t ht).1 h2
  rcases List.mem_cons.mp hpiece with h1 | hpiece
  · exact h1 ▸ hnat _ (by decide) _
  obtain ⟨a, ha, hla⟩ := List.mem_map.mp hpiece
  subst hla
  intro hm
  unfold annLine at hm
  rcases List.mem_append.mp hm with h2 | h2
  · exact no_nl_of_no_ws toFixed6_no_ws h2
  rcases List.mem_cons.mp h2 with h3 | h3
  · exact absurd h3 (by decide)
  · exact htxt _ ((hok t ht).2 a ha) h3

theorem hkannoFromText_hkannoToText (h : Hkanno)
    (hok : ∀ t ∈ h.annotation_tracks, TrackOk t) :
    hkannoFromText (hkannoToText h) = canonTracks h.annotation_tracks := by
  unfold hkannoFromText hkannoToText
  rw [splitNl_joinNl (by unfold hkannoLines; simp) (hkannoLines_no_nl h hok)]
  show ((hkannoLines h).foldl processLine ⟨[], none⟩).out ++
    ((hkannoLines h).foldl processLine ⟨[], none⟩).cur.toList = _
  unfold hkannoLines
  simp only [List.foldl_cons]
  rw [show ("# numOriginalFrames: ".toList ++ jsToString h.num_original_frames) =
      '#' :: (" numOriginalFrames: ".toList ++ jsToString h.num_original_frames) from by
    rw [show ("# numOriginalFrames: ".toList : List Char) =
      '#' :: " numOriginalFrames: ".toList from by decide, List.cons_append]]
  rw [processLine_comment_line]
  rw [show ("# duration: ".toList ++ jsToString h.duration) =
      '#' :: (" duration: ".toList ++ jsToString h.duration) from by
    rw [show ("# duration: ".toList : List Char) =
      '#' :: " duration: ".toList from by decide, List.cons_append]]
  rw [processLine_comment_line]
  rw [show ("# numAnnotationTracks: ".toList ++ natDigits h.annotation_tracks.length) =
      '#' :: (" numAnnotationTracks: ".toList ++ natDigits h.annotation_tracks.length) from by
    rw [show ("# numAnnotationTracks: ".toList : List Char) =
      '#' :: " numAnnotationTracks: ".toList from by decide, List.cons_append]]
  rw [processLine_comment_line]
  rw [foldl_trackLines h.annotation_tracks hok [] none]
  simp

/-! ## The parser only produces well-formed tracks -/

theorem joinSp_chars : ∀ {ps : List (List Char)} {c : Char}, c ∈ joinSp ps →
    c = ' ' ∨ ∃ p ∈ ps, c ∈ p
  | [], c, h => by simp [joinSp] at h
  | [x], c, h => Or.inr ⟨x, by simp, h⟩
  | x :: y :: t, c, h => by
    have h9 : c ∈ x ∨ c = ' ' ∨ c ∈ joinSp (y :: t) := by simpa [joinSp] using h
    rcases h9 with h1 | h1 | h1
    · exact Or.inr ⟨x, by simp, h1⟩
    · exact Or.inl h1
    · rcases joinSp_chars h1 with h3 | ⟨p, hp, hcp⟩
      · exact Or.inl h3
      · exact Or.inr ⟨p, by simp [hp], hcp⟩

theorem getD_splitSingle_chars {p : Char → Bool} {x : List Char} {i : Nat} {c : Char}
    (h : c ∈ (splitSingle p x).getD i []) : c ∈ x ∧ p c = false := by
  rw [List.getD_eq_getElem?_getD] at h
  cases hg : (splitSingle p x)[i]? with
  | none => rw [hg] at h; simp at h
  | some seg =>
    rw [hg] at h
    simp only [Option.getD_some] at h
    exact mem_splitSingle_flat (List.getElem?_mem hg) c h

/-- State invariant carried through the parser fold. -/
def StateOk (st : ParseState) : Prop :=
  (∀ t ∈ st.out, TrackOk t) ∧ ∀ t, st.cur = some t → TrackOk t

theorem decodeStr_NameOk {nm : List Char} (hfix : jsTrim nm = nm)
    (hcol : ':' ∉ nm) (hnl : '\n' ∉ nm) : NameOk (decodeStr nm) := by
  unfold decodeStr
  split
  · trivial
  · exact ⟨hfix, hcol, hnl, by assumption⟩

theorem decodeStr_TextOk {s : List Char} (hfix : jsTrim s = s)
    (hsp : ∀ c ∈ s, jsWs c = true → c = ' ') : TextOk (decodeStr s) := by
  unfold decodeStr
  split
  · trivial
  · exact ⟨hfix, hsp, by assumption⟩

theorem annOfLine_TextOk (l : List Char) : TextOk (annOfLine l).text := by
  show TextOk (decodeStr (jsTrim (joinSp (splitSingle jsWs (jsTrim l)).tail)))
  refine decodeStr_TextOk (jsTrim_idem _) ?_
  intro c hc hws
  have hcj := mem_of_mem_jsTrim hc
  rcases joinSp_chars hcj with h1 | ⟨p, hp, hcp⟩
  · exact h1
  · have hmem := mem_splitSingle_flat (List.mem_of_mem_tail hp) c hcp
    rw [hws] at hmem
    exact absurd hmem.2 (by simp)

theorem processLine_StateOk {st : ParseState} {l : List Char} (hnl : '\n' ∉ l)
    (h : StateOk st) : StateOk (processLine st l) := by
  by_cases h0 : jsTrim l = []
  · rw [processLine_blank h0]; exact h
  by_cases h1 : headerTest (jsTrim l) = true
  · rw [processLine_header h0 h1]
    constructor
    · intro t ht
      rcases List.mem_append.mp ht with h2 | h2
      · exact h.1 t h2
      · cases hc : st.cur with
        | none => rw [hc] at h2; simp at h2
        | some tr =>
          rw [hc] at h2
          simp only [Option.toList_some, List.mem_singleton] at h2
          exact h2 ▸ h.2 tr hc
    · intro t ht
      simp only [Option.some_inj] at ht
      rw [← ht]
      refine ⟨?_, by simp⟩
      refine decodeStr_NameOk (jsTrim_idem _) ?_ ?_
      · intro hc
        have h3 := getD_splitSingle_chars (mem_of_mem_jsTrim hc)
        simp at h3
      · intro hc
        have h3 := getD_splitSingle_chars (mem_of_mem_jsTrim hc)
        exact hnl (mem_of_mem_jsTrim h3.1)
  · by_cases h2 : (jsTrim l).headD ' ' = '#'
    · rw [processLine_comment h0 (by simpa using h1) h2]; exact h
    · rw [processLine_ann h0 (by simpa using h1) h2]
      have hprev : TrackOk (st.cur.getD ⟨none, []⟩) := by
        cases hc : st.cur with
        | none => exact ⟨trivial, by simp⟩
        | some tr => exact h.2 tr hc
      refine ⟨h.1, ?_⟩
      intro t ht
      simp only [Option.some_inj] at ht
      rw [← ht]
      refine ⟨hprev.1, ?_⟩
      intro a ha
      rcases List.mem_append.mp ha with h3 | h3
      · exact hprev.2 a h3
      · rw [List.mem_singleton.mp h3]
        exact annOfLine_TextOk l

theorem foldl_StateOk : ∀ (lines : List (List Char)), (∀ l ∈ lines, '\n' ∉ l) →
    ∀ st, StateOk st → StateOk (lines.foldl processLine st)
  | [], _, _, h => h
  | l :: rest, hnl, st, h =>
    foldl_StateOk rest (fun x hx => hnl x (by simp [hx])) _
      (processLine_StateOk (hnl l (by simp)) h)

theorem hkannoFromText_TracksOk (text : List Char) :
    ∀ t ∈ hkannoFromText text, TrackOk t := by
  have hlines : ∀ l ∈ splitNl text, '\n' ∉ l := by
    intro l hl hc
    have := (mem_splitSingle_flat hl _ hc).2
    simp at this
  have hfold : StateOk ((splitNl text).foldl processLine ⟨[], none⟩) :=
    foldl_StateOk _ hlines _ ⟨by simp, by simp⟩
  intro t ht
  unfold hkannoFromText parseLines at ht
  rcases List.mem_append.mp ht with h2 | h2
  · exact hfold.1 t h2
  · cases hc : ((splitNl text).foldl processLine ⟨[], none⟩).cur with
    | none => rw [hc] at h2; simp at h2
    | some tr =>
      rw [hc] at h2
      simp only [Option.toList_some, List.mem_singleton] at h2
      exact h2 ▸ hfold.2 tr hc

/-! ## Header-value helpers -/

/-- The value segment before the first colon (what `split(':')[1]` extracts
from the text after the header colon). -/
def beforeColon (v : List Char) : List Char :=
  v.takeWhile (fun c => !decide (c = ':'))

theorem dropWhile_append_allws {w : List Char} (hw : ∀ c ∈ w, jsWs c = true) :
    ∀ (x : List Char), List.dropWhile jsWs (w ++ x) = List.dropWhile jsWs x := by
  induction w with
  | nil => intro x; rfl
  | cons c w ih =>
    intro x
    rw [List.cons_append, List.dropWhile_cons, if_pos (by simp [hw c (by simp)])]
    exact ih (fun a ha => hw a (by simp [ha])) x

theorem trimRight_append_cons {c : Char} (hc : jsWs c = false) (a v : List Char) :
    trimRight (a ++ c :: v) = a ++ c :: trimRight v := by
  unfold trimRight
  rw [show (a ++ c :: v).reverse = v.reverse ++ (c :: a.reverse) from by simp]
  rw [List.dropWhile_append]
  have hres : List.dropWhile jsWs (c :: a.reverse) = c :: a.reverse := by
    rw [List.dropWhile_cons, if_neg (by simp [hc])]
  by_cases he : (v.reverse.dropWhile jsWs).isEmpty
  · rw [if_pos he, hres]
    have hnil : v.reverse.dropWhile jsWs = [] := by simpa [List.isEmpty_iff] using he
    simp [hnil]
  · rw [if_neg he]
    simp

theorem ciStrip_map_toLower : ∀ {kw pat : List Char}, kw.map Char.toLower = pat →
    ∀ (rest : List Char), ciStrip pat (kw ++ rest) = some rest := by
  intro kw
  induction kw with
  | nil =>
    intro pat h rest
    rw [← h]
    simp only [List.map_nil, List.nil_append]
    cases rest <;> rfl
  | cons c kw ih =>
    intro pat h rest
    rw [← h]
    simp only [List.map_cons, List.cons_append]
    unfold ciStrip
    rw [if_pos rfl]
    exact ih rfl rest

theorem jsWs_toLower {c : Char} (h : jsWs c = true) : c.toLower = c := by
  have h2 := h
  simp only [jsWs, Bool.or_eq_true, decide_eq_true_eq] at h2
  rcases h2 with ((((((h3 | h3) | h3) | h3) | h3) | h3) | h3) <;> subst h3 <;> decide

theorem map_toLower_trackname_facts {kw : List Char}
    (hkw : kw.map Char.toLower = "trackname".toList) :
    kw ≠ [] ∧ (∀ c ∈ kw, jsWs c = false) ∧ ∀ c ∈ kw, ¬ c = ':' := by
  refine ⟨?_, ?_, ?_⟩
  · intro h
    rw [h] at hkw
    exact absurd hkw (by decide)
  · intro c hc
    have hmem : c.toLower ∈ ("trackname".toList : List Char) := by
      rw [← hkw]
      exact List.mem_map_of_mem _ hc
    by_contra hws
    have hws2 : jsWs c = true := by simpa using hws
    rw [jsWs_toLower hws2] at hmem
    have hno : ∀ x ∈ ("trackname".toList : List Char), jsWs x = false := by decide
    rw [hno c hmem] at hws2
    exact absurd hws2 (by decide)
  · intro c hc hcol
    subst hcol
    have hmem : (':').toLower ∈ ("trackname".toList : List Char) := by
      rw [← hkw]
      exact List.mem_map_of_mem _ hc
    revert hmem
    decide

theorem splitSingle_headD_takeWhile (p : Char → Bool) : ∀ (x : List Char),
    (splitSingle p x).headD [] = x.takeWhile (fun c => !p c)
  | [] => rfl
  | c :: rest => by
    by_cases hc : p c
    · rw [splitSingle_cons_pos hc, List.takeWhile_cons, if_neg (by simp [hc])]
      rfl
    · rw [splitSingle_cons_neg (by simpa using hc), List.takeWhile_cons,
        if_pos (by simpa using hc)]
      show c :: (splitSingle p rest).headD [] = c :: List.takeWhile (fun c => !p c) rest
      rw [splitSingle_headD_takeWhile p rest]

theorem getD_zero_headD {α : Type} (l : List α) (d : α) : l.getD 0 d = l.headD d := by
  cases l <;> rfl

theorem jsTrim_append_allws {w : List Char} (hw : ∀ c ∈ w, jsWs c = true) (x : List Char) :
    jsTrim (x ++ w) = jsTrim x := by
  unfold jsTrim
  rw [List.dropWhile_append]
  by_cases he : (x.dropWhile jsWs).isEmpty
  · rw [if_pos he]
    have h1 : x.dropWhile jsWs = [] := by simpa [List.isEmpty_iff] using he
    rw [List.dropWhile_eq_nil_iff.mpr hw, h1]
  · rw [if_neg he]
    exact trimRight_append_allws hw _

theorem trimRight_decomp (v : List Char) :
    ∃ w, v = trimRight v ++ w ∧ ∀ c ∈ w, jsWs c = true := by
  refine ⟨(v.reverse.takeWhile jsWs).reverse, ?_, ?_⟩
  · conv_lhs => rw [← List.reverse_reverse v,
      ← List.takeWhile_append_dropWhile (p := jsWs) (l := v.reverse)]
    rw [List.reverse_append]
    rfl
  · intro c hc
    rw [List.mem_reverse] at hc
    exact List.mem_takeWhile_imp hc

theorem jsTrim_beforeColon_trimRight (v : List Char) :
    jsTrim (beforeColon (trimRight v)) = jsTrim (beforeColon v) := by
  obtain ⟨w, hv, hw⟩ := trimRight_decomp v
  unfold beforeColon
  conv_rhs => rw [hv]
  rw [List.takeWhile_append]
  by_cases hlen : ((trimRight v).takeWhile (fun c => !decide (c = ':'))).length =
      (trimRight v).length
  · rw [if_pos hlen]
    have heq : (trimRight v).takeWhile (fun c => !decide (c = ':')) = trimRight v :=
      (List.takeWhile_prefix _).eq_of_length hlen
    have hwt : w.takeWhile (fun c => !decide (c = ':')) = w := by
      refine List.takeWhile_eq_self_iff.mpr fun c hc => ?_
      have hwc := hw c hc
      have : ¬ c = ':' := fun h => by rw [h] at hwc; exact absurd hwc (by decide)
      simp [this]
    rw [hwt, heq]
    exact (jsTrim_append_allws hw _).symm
  · rw [if_neg hlen]

theorem processLine_header_value (st : ParseState) (w0 kw w1 v : List Char)
    (hw0 : ∀ c ∈ w0, jsWs c = true) (hw1 : ∀ c ∈ w1, jsWs c = true)
    (hkw : kw.map Char.toLower = "trackname".toList) :
    processLine st (w0 ++ kw ++ w1 ++ ':' :: v) =
      ⟨st.out ++ st.cur.toList, some ⟨decodeStr (jsTrim (beforeColon v)), []⟩⟩ := by
  obtain ⟨hkne, hkws, hkcol⟩ := map_toLower_trackname_facts hkw
  have hdrop : List.dropWhile jsWs (w0 ++ kw ++ w1 ++ ':' :: v) = kw ++ (w1 ++ ':' :: v) := by
    rw [show w0 ++ kw ++ w1 ++ ':' :: v = w0 ++ (kw ++ (w1 ++ ':' :: v)) from by simp]
    rw [dropWhile_append_allws hw0]
    cases hk : kw with
    | nil => exact absurd hk hkne
    | cons k0 kr =>
      rw [List.cons_append, List.dropWhile_cons, if_neg (by simp [hkws k0 (by simp [hk])])]
  have htrim : jsTrim (w0 ++ kw ++ w1 ++ ':' :: v) = (kw ++ w1) ++ ':' :: trimRight v := by
    unfold jsTrim
    rw [hdrop]
    rw [show kw ++ (w1 ++ ':' :: v) = (kw ++ w1) ++ ':' :: v from by simp]
    exact trimRight_append_cons (by decide) _ v
  have hht : headerTest ((kw ++ w1) ++ ':' :: trimRight v) = true := by
    have hstrip : ciStrip ("trackname".toList) ((kw ++ w1) ++ ':' :: trimRight v) =
        some (w1 ++ ':' :: trimRight v) := by
      rw [show (kw ++ w1) ++ ':' :: trimRight v = kw ++ (w1 ++ ':' :: trimRight v) from by simp]
      exact ciStrip_map_toLower hkw _
    rw [headerTest_some hstrip, dropWhile_append_allws hw1, List.dropWhile_cons,
      if_neg (by decide)]
    simp
  have hclean : ∀ c ∈ kw ++ w1, (fun c => decide (c = ':')) c = false := by
    intro c hc
    rcases List.mem_append.mp hc with h1 | h1
    · simpa using hkcol c h1
    · have hwc := hw1 c h1
      simp only [decide_eq_false_iff_not]
      intro h2
      rw [h2] at hwc
      exact absurd hwc (by decide)
  rw [processLine_header (by rw [htrim]; simp) (by rw [htrim]; exact hht)]
  rw [htrim]
  rw [splitSingle_clean_append hclean (by decide) (trimRight v)]
  rw [List.getD_cons_succ, getD_zero_headD, splitSingle_headD_takeWhile]
  show (⟨st.out ++ st.cur.toList,
    some ⟨decodeStr (jsTrim (beforeColon (trimRight v))), []⟩⟩ : ParseState) = _
  rw [jsTrim_beforeColon_trimRight]

/-! ## Shape of `parseFloat` on rendered numbers -/

theorem floatSplit_not_sign {c : Char} (hws : jsWs c = false) (hm : c ≠ '-') (hp : c ≠ '+')
    (r : List Char) : floatSplit (c :: r) = (false, c :: r) := by
  simp [floatSplit, hws, hm, hp]

theorem floatSplit_neg (rest : List Char) : floatSplit ('-' :: rest) = (true, rest) := by
  simp only [floatSplit, List.dropWhile_cons]
  rw [if_neg (by decide)]
  simp

theorem digitChars_shape : ∀ c ∈ digitChars,
    jsWs c = false ∧ c ≠ '-' ∧ c ≠ '+' ∧ c.isDigit = true := by decide

theorem floatShaped_digitHead (pre : List Char) (hpre : pre = [] ∨ pre = ['-'])
    (c : Char) (r : List Char) (hc : c ∈ digitChars) :
    floatShaped (pre ++ c :: r) = true := by
  have hfacts := digitChars_shape c hc
  have htake : (c :: r).takeWhile Char.isDigit ≠ [] := by
    rw [List.takeWhile_cons, if_pos hfacts.2.2.2]
    simp
  rcases hpre with h | h <;> subst h
  · rw [List.nil_append]
    unfold floatShaped
    rw [floatSplit_not_sign hfacts.1 hfacts.2.1 hfacts.2.2.1]
    simp [htake]
  · rw [show (['-'] : List Char) ++ c :: r = '-' :: c :: r from rfl]
    unfold floatShaped
    rw [floatSplit_neg]
    simp [htake]

theorem parseFloat_head_nan {c : Char} (hws : jsWs c = false) (hm : c ≠ '-') (hp : c ≠ '+')
    (hI : c ≠ 'I') (hd : c.isDigit = false) (hdot : c ≠ '.') (r : List Char) :
    parseFloat (c :: r) = JNum.nan := by
  have hsplit := floatSplit_not_sign hws hm hp r
  have htake : List.takeWhile Char.isDigit (c :: r) = [] := by
    rw [List.takeWhile_cons, if_neg (by simp [hd])]
  have hdw : List.dropWhile Char.isDigit (c :: r) = c :: r := by
    rw [List.dropWhile_cons, if_neg (by simp [hd])]
  have hfrac : floatFrac (c :: r) = [] := by
    unfold floatFrac
    rw [hdw]
    simp [hdot]
  have hpref : (['I', 'n', 'f', 'i', 'n', 'i', 't', 'y'] : List Char).isPrefixOf (c :: r)
      = false := by
    rw [Bool.eq_false_iff]
    intro hx
    have h2 := List.isPrefixOf_iff_prefix.mp hx
    rw [List.cons_prefix_cons] at h2
    exact hI h2.1.symm
  have hsh : floatShaped (c :: r) = false := by
    unfold floatShaped
    rw [hsplit]
    simp [htake, hfrac, hpref]
  exact (parseFloat_nan_iff _).mpr hsh

theorem toFixed6_num_decomp (d : Dec) :
    ∃ pre c r, toFixed6 (JNum.num d) = pre ++ c :: r ∧ (pre = [] ∨ pre = ['-']) ∧
      c ∈ digitChars := by
  simp only [toFixed6]
  by_cases hq : d.mant < 0
  · rw [if_pos hq]
    split
    · obtain ⟨c, r, hcr, hc⟩ := jsToStringDec_head_nonneg
        (d := ⟨(d.mant.natAbs : Int), d.exp⟩) (by simp)
      exact ⟨['-'], c, r, by rw [hcr], Or.inr rfl, hc⟩
    · obtain ⟨c, r, hcr, hc⟩ := natDigits_head
        ((2 * d.mant.natAbs * 10 ^ (6 : Nat) + 10 ^ d.exp) / (2 * 10 ^ d.exp) / 10 ^ (6 : Nat))
      refine ⟨['-'], c, r ++ '.' :: pad6
        ((2 * d.mant.natAbs * 10 ^ (6 : Nat) + 10 ^ d.exp) / (2 * 10 ^ d.exp) % 10 ^ (6 : Nat)),
        ?_, Or.inr rfl, hc⟩
      rw [hcr]
      simp
  · rw [if_neg hq]
    split
    · obtain ⟨c, r, hcr, hc⟩ := jsToStringDec_head_nonneg
        (d := ⟨(d.mant.natAbs : Int), d.exp⟩) (by simp)
      exact ⟨[], c, r, by rw [List.nil_append, hcr]; rfl, Or.inl rfl, hc⟩
    · obtain ⟨c, r, hcr, hc⟩ := natDigits_head
        ((2 * d.mant.natAbs * 10 ^ (6 : Nat) + 10 ^ d.exp) / (2 * 10 ^ d.exp) / 10 ^ (6 : Nat))
      refine ⟨[], c, r ++ '.' :: pad6
        ((2 * d.mant.natAbs * 10 ^ (6 : Nat) + 10 ^ d.exp) / (2 * 10 ^ d.exp) % 10 ^ (6 : Nat)),
        ?_, Or.inl rfl, hc⟩
      rw [List.nil_append, hcr]
      simp

theorem canonTime_ne_nan {t : JNum} (h : t ≠ JNum.nan) : canonTime t ≠ JNum.nan := by
  cases t with
  | nan => exact absurd rfl h
  | inf b => cases b <;> decide
  | num d =>
    obtain ⟨pre, c, r, heq, hpre, hc⟩ := toFixed6_num_decomp d
    unfold canonTime
    rw [heq]
    intro hnan
    rw [parseFloat_nan_iff] at hnan
    rw [floatShaped_digitHead pre hpre c r hc] at hnan
    exact absurd hnan (by decide)

/-! ## Six-decimal shape of rendered times -/

/-- A token renders with exactly six digits after the decimal point: it
contains a decimal point, and exactly six characters follow the first one,
all of them digits. -/
def sixDecimals (tok : List Char) : Bool :=
  let r := tok.dropWhile (fun c => !decide (c = '.'))
  decide (r.headD ' ' = '.') && decide (r.tail.length = 6) && r.tail.all Char.isDigit

theorem natDigitsAux_length : ∀ (fuel n k : Nat), 1 ≤ k → n < 10 ^ k →
    (natDigitsAux fuel n).length ≤ k := by
  intro fuel
  induction fuel with
  | zero =>
    intro n k _ _
    simp [natDigitsAux]
  | succ fuel ih =>
    intro n k hk hn
    rw [natDigitsAux]
    by_cases h10 : n < 10
    · rw [if_pos h10]
      simpa using hk
    · rw [if_neg h10]
      have hk2 : 2 ≤ k := by
        by_contra hlt
        have : k = 1 := by omega
        subst this
        simp at hn
        omega
      have hdiv : n / 10 < 10 ^ (k - 1) := by
        rw [Nat.div_lt_iff_lt_mul (by omega)]
        calc n < 10 ^ k := hn
        _ = 10 ^ (k - 1) * 10 := by
          rw [← pow_succ]
          congr 1
          omega
      have := ih (n / 10) (k - 1) (by omega) hdiv
      rw [List.length_append]
      simp only [List.length_singleton]
      omega

theorem natDigits_length {n k : Nat} (hk : 1 ≤ k) (hn : n < 10 ^ k) :
    (natDigits n).length ≤ k :=
  natDigitsAux_length (n + 1) n k hk hn

theorem pad6_length {k : Nat} (hk : k < 10 ^ (6 : Nat)) : (pad6 k).length = 6 := by
  unfold pad6
  rw [List.length_append, List.length_replicate]
  have := natDigits_length (n := k) (k := 6) (by omega) hk
  omega

theorem sixDecimals_toFixed6 (d : Dec) (h : d.mant.natAbs < 10 ^ (21 + d.exp)) :
    sixDecimals (toFixed6 (JNum.num d)) = true := by
  simp only [toFixed6]
  rw [if_neg (by omega)]
  set s : List Char := if d.mant < 0 then ['-'] else [] with hs
  set n : Nat := (2 * d.mant.natAbs * 10 ^ (6 : Nat) + 10 ^ d.exp) / (2 * 10 ^ d.exp) with hn
  have hsdot : ∀ c ∈ s, (fun c => !decide (c = '.')) c = true := by
    intro c hc
    rw [hs] at hc
    split at hc <;> simp_all <;> subst hc <;> decide
  have hddot : ∀ c ∈ natDigits (n / 10 ^ (6 : Nat)), (fun c => !decide (c = '.')) c = true := by
    intro c hc
    have := (digitChars_facts c (natDigits_mem hc)).2.2.2.2.2.2
    simp only [Bool.not_eq_true']
    rw [decide_eq_false_iff_not]
    intro he
    subst he
    exact absurd this (by decide)
  have hdw : (s ++ natDigits (n / 10 ^ (6 : Nat)) ++ '.' :: pad6 (n % 10 ^ (6 : Nat))).dropWhile
      (fun c => !decide (c = '.')) = '.' :: pad6 (n % 10 ^ (6 : Nat)) := by
    rw [List.append_assoc, List.dropWhile_append, if_pos (by
      rw [List.dropWhile_eq_nil_iff.mpr fun c hc => by simpa using hsdot c hc]
      rfl)]
    rw [List.dropWhile_append, if_pos (by
      rw [List.dropWhile_eq_nil_iff.mpr fun c hc => by simpa using hddot c hc]
      rfl)]
    rw [List.dropWhile_cons, if_neg (by decide)]
  unfold sixDecimals
  rw [hdw]
  simp only [List.headD_cons, List.tail_cons, decide_True, Bool.true_and, decide_eq_true_eq,
    Bool.and_eq_true, List.all_eq_true]
  refine ⟨?_, ?_⟩
  · exact pad6_length (Nat.mod_lt _ (by norm_num))
  · intro c hc
    exact (digitChars_facts c (pad6_mem hc)).2.2.2.2.2.2

/-! ## Whitespace runs under split and join -/

theorem splitSingle_allws_append {w : List Char} (hw : ∀ c ∈ w, jsWs c = true)
    (x : List Char) :
    splitSingle jsWs (w ++ x) = List.replicate w.length [] ++ splitSingle jsWs x := by
  induction w with
  | nil => rfl
  | cons c t ih =>
    rw [List.cons_append, splitSingle_cons_pos (hw c (by simp)),
      ih fun y hy => hw y (by simp [hy])]
    rfl

theorem joinSp_nil_cons {ps : List (List Char)} (h : ps ≠ []) :
    joinSp ([] :: ps) = ' ' :: joinSp ps := by
  cases ps with
  | nil => exact absurd rfl h
  | cons y t => rfl

theorem joinSp_replicate_nil : ∀ (n : Nat) {ps : List (List Char)}, ps ≠ [] →
    joinSp (List.replicate n [] ++ ps) = List.replicate n ' ' ++ joinSp ps := by
  intro n
  induction n with
  | zero => intro ps _; rfl
  | succ n ih =>
    intro ps hps
    rw [List.replicate_succ, List.cons_append,
      joinSp_nil_cons (by simp [hps]), ih hps, List.replicate_succ, List.cons_append]

/-! ## Fold lemmas over header-free line runs -/

theorem annsOfLines_nil : annsOfLines [] = [] := rfl

theorem annsOfLines_cons_not {l : List Char} (h : parserIsAnnLine l = false)
    (lines : List (List Char)) : annsOfLines (l :: lines) = annsOfLines lines := by
  simp [annsOfLines, List.filter_cons, h]

theorem annsOfLines_cons_ann {l : List Char} (h : parserIsAnnLine l = true)
    (lines : List (List Char)) :
    annsOfLines (l :: lines) = annOfLine l :: annsOfLines lines := by
  simp [annsOfLines, List.filter_cons, h]

theorem parserIsAnnLine_true {l : List Char} (h0 : jsTrim l ≠ [])
    (h1 : headerTest (jsTrim l) = false) (h2 : ¬ (jsTrim l).headD ' ' = '#') :
    parserIsAnnLine l = true := by
  unfold parserIsAnnLine
  rw [decide_eq_false_iff_not.mpr h0, h1, decide_eq_false_iff_not.mpr h2]
  rfl

theorem parserIsAnnLine_false_blank {l : List Char} (h0 : jsTrim l = []) :
    parserIsAnnLine l = false := by
  unfold parserIsAnnLine
  rw [decide_eq_true h0]
  rfl

theorem parserIsAnnLine_false_comment {l : List Char} (h2 : (jsTrim l).headD ' ' = '#') :
    parserIsAnnLine l = false := by
  unfold parserIsAnnLine
  rw [decide_eq_true h2]
  simp

theorem parserIsHeaderLine_parts {l : List Char} (h : parserIsHeaderLine l = false)
    (hne : jsTrim l ≠ []) : headerTest (jsTrim l) = false := by
  unfold parserIsHeaderLine at h
  rcases Bool.and_eq_false_iff.mp h with h1 | h1
  · rw [Bool.not_eq_false', decide_eq_true_eq] at h1
    exact absurd h1 hne
  · exact h1

theorem foldl_noheader_some (lines : List (List Char))
    (hnh : ∀ l ∈ lines, parserIsHeaderLine l = false) :
    ∀ (o : List AnnotationTrack) (nm : Option (List Char)) (anns : List Anno),
    lines.foldl processLine ⟨o, some ⟨nm, anns⟩⟩ =
      ⟨o, some ⟨nm, anns ++ annsOfLines lines⟩⟩ := by
  induction lines with
  | nil => intro o nm anns; simp [annsOfLines_nil]
  | cons l rest ih =>
    intro o nm anns
    have hl := hnh l (by simp)
    simp only [List.foldl_cons]
    by_cases h0 : jsTrim l = []
    · rw [processLine_blank h0,
        annsOfLines_cons_not (parserIsAnnLine_false_blank h0) rest,
        ih (fun x hx => hnh x (by simp [hx])) o nm anns]
    have h1 : headerTest (jsTrim l) = false := parserIsHeaderLine_parts hl h0
    by_cases h2 : (jsTrim l).headD ' ' = '#'
    · rw [processLine_comment h0 h1 h2,
        annsOfLines_cons_not (parserIsAnnLine_false_comment h2) rest,
        ih (fun x hx => hnh x (by simp [hx])) o nm anns]
    · rw [processLine_ann h0 h1 h2]
      show List.foldl processLine ⟨o, some ⟨nm, anns ++ [annOfLine l]⟩⟩ rest = _
      rw [ih (fun x hx => hnh x (by simp [hx])) o nm (anns ++ [annOfLine l]),
        annsOfLines_cons_ann (parserIsAnnLine_true h0 h1 h2) rest]
      simp

theorem foldl_noheader_none (lines : List (List Char))
    (hnh : ∀ l ∈ lines, parserIsHeaderLine l = false) :
    ∀ (o : List AnnotationTrack),
    lines.foldl processLine ⟨o, none⟩ =
      ⟨o, if annsOfLines lines = [] then none
          else some ⟨none, annsOfLines lines⟩⟩ := by
  induction lines with
  | nil => intro o; simp [annsOfLines_nil]
  | cons l rest ih =>
    intro o
    have hl := hnh l (by simp)
    simp only [List.foldl_cons]
    by_cases h0 : jsTrim l = []
    · rw [processLine_blank h0,
        annsOfLines_cons_not (parserIsAnnLine_false_blank h0) rest,
        ih (fun x hx => hnh x (by simp [hx])) o]
    have h1 : headerTest (jsTrim l) = false := parserIsHeaderLine_parts hl h0
    by_cases h2 : (jsTrim l).headD ' ' = '#'
    · rw [processLine_comment h0 h1 h2,
        annsOfLines_cons_not (parserIsAnnLine_false_comment h2) rest,
        ih (fun x hx => hnh x (by simp [hx])) o]
    · rw [processLine_ann h0 h1 h2]
      show List.foldl processLine ⟨o, some ⟨none, [] ++ [annOfLine l]⟩⟩ rest = _
      rw [foldl_noheader_some rest (fun x hx => hnh x (by simp [hx])) o none ([] ++ [annOfLine l]),
        annsOfLines_cons_ann (parserIsAnnLine_true h0 h1 h2) rest]
      simp

/-! ## Agreement of the two line classifiers on serialized lines -/

theorem parserIsAnnLine_false_header {l : List Char} (h1 : headerTest (jsTrim l) = true) :
    parserIsAnnLine l = false := by
  unfold parserIsAnnLine
  rw [h1]
  simp

theorem parserIsHeaderLine_false_of_headerTest {l : List Char}
    (h1 : headerTest (jsTrim l) = false) : parserIsHeaderLine l = false := by
  unfold parserIsHeaderLine
  rw [h1]
  simp

theorem corrIsTrackLine_cons_ne {c : Char} (hws : jsWs c = false) (h : c ≠ 't')
    (r : List Char) : corrIsTrackLine (c :: r) = false := by
  unfold corrIsTrackLine
  rw [jsTrim_cons_not_ws hws, Bool.eq_false_iff]
  intro hx
  have h2 := List.isPrefixOf_iff_prefix.mp hx
  rw [show ("trackName".toList : List Char) = 't' :: "rackName".toList from by decide,
    List.cons_prefix_cons] at h2
  exact h h2.1.symm

theorem corrIsTimeLine_head_nan {c : Char} (hws : jsWs c = false) (hm : c ≠ '-')
    (hp : c ≠ '+') (hI : c ≠ 'I') (hd : c.isDigit = false) (hdot : c ≠ '.')
    (r : List Char) : corrIsTimeLine (c :: r) = false := by
  unfold corrIsTimeLine
  have h1 : corrFirstTok (c :: r) = c :: List.takeWhile (fun x => !jsWs x) (trimRight r) := by
    unfold corrFirstTok
    rw [jsTrim_cons_not_ws hws, List.takeWhile_cons, if_pos (by simp [hws])]
  rw [h1, parseFloat_head_nan hws hm hp hI hd hdot _]
  simp

theorem c2_comment_line (r : List Char) :
    corrIsTrackLine ('#' :: r) = false ∧ corrIsTimeLine ('#' :: r) = false ∧
    parserIsHeaderLine ('#' :: r) = false ∧ parserIsAnnLine ('#' :: r) = false := by
  refine ⟨corrIsTrackLine_cons_ne (by decide) (by decide) r,
    corrIsTimeLine_head_nan (by decide) (by decide) (by decide) (by decide) (by decide)
      (by decide) r,
    ?_, ?_⟩
  · exact parserIsHeaderLine_false_of_headerTest
      (by rw [jsTrim_cons_not_ws (by decide)]; exact headerTest_cons_ne (by decide) _)
  · exact parserIsAnnLine_false_comment (by rw [jsTrim_cons_not_ws (by decide)]; rfl)

theorem c2_blank_line :
    corrIsTrackLine [] = false ∧ corrIsTimeLine [] = false ∧
    parserIsHeaderLine [] = false ∧ parserIsAnnLine [] = false := by decide

theorem c2_header_line (name : Option (List Char)) (h : NameOk name) :
    corrIsTrackLine ("trackName: ".toList ++ encodeOptStr name) = true ∧
    corrIsTimeLine ("trackName: ".toList ++ encodeOptStr name) = false ∧
    parserIsHeaderLine ("trackName: ".toList ++ encodeOptStr name) = true ∧
    parserIsAnnLine ("trackName: ".toList ++ encodeOptStr name) = false := by
  obtain ⟨henc, _⟩ := encodeOptStr_facts h
  by_cases hnil : encodeOptStr name = []
  · rw [hnil, List.append_nil]
    decide
  · have hlast : jsWs ((encodeOptStr name).getLast hnil) = false :=
      getLast_not_ws_of_trim_fix henc hnil
    have htr : jsTrim ("trackName: ".toList ++ encodeOptStr name) =
        "trackName: ".toList ++ encodeOptStr name := by
      rw [show ("trackName: ".toList : List Char) = 't' :: "rackName: ".toList from by decide,
        List.cons_append, jsTrim_cons_not_ws (by decide)]
      congr 1
      exact trimRight_append_right hnil hlast _
    have hht : headerTest (jsTrim ("trackName: ".toList ++ encodeOptStr name)) = true := by
      rw [htr, show ("trackName: ".toList ++ encodeOptStr name : List Char) =
        "trackName".toList ++ (':' :: ' ' :: encodeOptStr name) from by simp]
      rw [headerTest_some (ciStrip_trackName _)]
      rw [List.dropWhile_cons, if_neg (by decide)]
      simp
    have hct : corrIsTrackLine ("trackName: ".toList ++ encodeOptStr name) = true := by
      unfold corrIsTrackLine
      rw [htr]
      refine List.isPrefixOf_iff_prefix.mpr ?_
      rw [show ("trackName: ".toList ++ encodeOptStr name : List Char) =
        "trackName".toList ++ (':' :: ' ' :: encodeOptStr name) from by simp]
      exact List.prefix_append _ _
    refine ⟨hct, ?_, ?_, parserIsAnnLine_false_header hht⟩
    · unfold corrIsTimeLine
      rw [hct]
      simp
    · unfold parserIsHeaderLine
      rw [hht, htr]
      simp [hnil]

theorem encodeOptStr_trim_fix_text {text : Option (List Char)} (h : TextOk text) :
    jsTrim (encodeOptStr text) = encodeOptStr text := by
  cases text with
  | none => exact NULL_STR_trim
  | some s => exact jsTrim_idem s

theorem annLine_trim_decomp (a : Anno) (hok : TextOk a.text) :
    ∃ rest, jsTrim (annLine a) = toFixed6 a.time ++ rest ∧
      (rest = [] ∨ rest = ' ' :: encodeOptStr a.text) := by
  obtain ⟨c0, r0, hcr, _, _, hnws⟩ := toFixed6_head a.time
  by_cases hnil : encodeOptStr a.text = []
  · refine ⟨[], ?_, Or.inl rfl⟩
    rw [List.append_nil]
    show jsTrim (toFixed6 a.time ++ ' ' :: encodeOptStr a.text) = _
    rw [hnil, show (' ' :: ([] : List Char)) = [' '] from rfl,
      jsTrim_append_allws (by decide), jsTrim_eq_self_of_no_ws toFixed6_no_ws]
  · refine ⟨' ' :: encodeOptStr a.text, ?_, Or.inr rfl⟩
    have henc := encodeOptStr_trim_fix_text hok
    have hlast : jsWs ((encodeOptStr a.text).getLast hnil) = false :=
      getLast_not_ws_of_trim_fix henc hnil
    have htrr : trimRight (r0 ++ ' ' :: encodeOptStr a.text) =
        r0 ++ ' ' :: encodeOptStr a.text := by
      rw [show r0 ++ ' ' :: encodeOptStr a.text =
        (r0 ++ [' ']) ++ encodeOptStr a.text from by simp]
      rw [trimRight_append_right hnil hlast _]
    show jsTrim (toFixed6 a.time ++ ' ' :: encodeOptStr a.text) = _
    rw [hcr, List.cons_append, jsTrim_cons_not_ws hnws, htrr]

theorem corrFirstTok_annLine (a : Anno) (hok : TextOk a.text) :
    corrFirstTok (annLine a) = toFixed6 a.time := by
  obtain ⟨rest, htr, hrest⟩ := annLine_trim_decomp a hok
  unfold corrFirstTok
  rw [htr, List.takeWhile_append]
  have hself : List.takeWhile (fun x => !jsWs x) (toFixed6 a.time) = toFixed6 a.time :=
    List.takeWhile_eq_self_iff.mpr fun c hc => by simp [toFixed6_no_ws c hc]
  rw [if_pos (by rw [hself])]
  rcases hrest with h | h <;> subst h
  · simp
  · rw [List.takeWhile_cons, if_neg (by decide)]
    simp

theorem c2_ann_line (a : Anno) (hok : TextOk a.text) (hnn : a.time ≠ JNum.nan) :
    corrIsTrackLine (annLine a) = false ∧ corrIsTimeLine (annLine a) = true ∧
    parserIsHeaderLine (annLine a) = false ∧ parserIsAnnLine (annLine a) = true := by
  obtain ⟨c0, r0, hcr, hnt, hnh, _⟩ := toFixed6_head a.time
  obtain ⟨rest, htr, _⟩ := annLine_trim_decomp a hok
  have hcons : jsTrim (annLine a) = c0 :: (r0 ++ rest) := by
    rw [htr, hcr, List.cons_append]
  have hct : corrIsTrackLine (annLine a) = false := by
    unfold corrIsTrackLine
    rw [hcons, Bool.eq_false_iff]
    intro hx
    have h2 := List.isPrefixOf_iff_prefix.mp hx
    rw [show ("trackName".toList : List Char) = 't' :: "rackName".toList from by decide,
      List.cons_prefix_cons] at h2
    exact hnt (by rw [← h2.1]; decide)
  have hht : headerTest (jsTrim (annLine a)) = false := by
    rw [hcons]
    exact headerTest_cons_ne hnt _
  refine ⟨hct, ?_, parserIsHeaderLine_false_of_headerTest hht, ?_⟩
  · unfold corrIsTimeLine
    rw [hct, corrFirstTok_annLine a hok]
    have hpf : parseFloat (toFixed6 a.time) ≠ JNum.nan := by
      have h3 := canonTime_ne_nan hnn
      unfold canonTime at h3
      exact h3
    simp [hpf]
  · exact parserIsAnnLine_true (by rw [hcons]; simp) hht (by rw [hcons]; simpa using hnh)

/-! ## Correlator index lists: sortedness and the pairing loop -/

theorem collectPrimaryAux_facts : ∀ (lines : List (List Char)) (i : Nat),
    ((collectPrimaryAux i lines).1.Pairwise (· < ·) ∧
      ∀ x ∈ (collectPrimaryAux i lines).1, i < x) ∧
    ((collectPrimaryAux i lines).2.Pairwise (· < ·) ∧
      ∀ x ∈ (collectPrimaryAux i lines).2, i < x) := by
  intro lines
  induction lines with
  | nil => intro i; simp [collectPrimaryAux]
  | cons l rest ih =>
    intro i
    obtain ⟨⟨hp1, hb1⟩, hp2, hb2⟩ := ih (i + 1)
    unfold collectPrimaryAux
    by_cases h1 : corrIsTrackLine l
    · rw [if_pos h1]
      refine ⟨⟨List.pairwise_cons.mpr ⟨fun x hx => hb1 x hx, hp1⟩, ?_⟩, hp2,
        fun x hx => by have := hb2 x hx; omega⟩
      intro x hx
      rcases List.mem_cons.mp hx with h | h
      · omega
      · have := hb1 x h; omega
    · rw [if_neg h1]
      by_cases h2 : corrIsTimeLine l
      · rw [if_pos h2]
        refine ⟨⟨hp1, fun x hx => by have := hb1 x hx; omega⟩,
          List.pairwise_cons.mpr ⟨fun x hx => hb2 x hx, hp2⟩, ?_⟩
        intro x hx
        rcases List.mem_cons.mp hx with h | h
        · omega
        · have := hb2 x h; omega
      · rw [if_neg h2]
        exact ⟨⟨hp1, fun x hx => by have := hb1 x hx; omega⟩,
          hp2, fun x hx => by have := hb2 x hx; omega⟩

theorem collectSecondaryAux_facts : ∀ (lines : List (List Char)) (i : Nat),
    ((collectSecondaryAux i lines).1.Pairwise (· < ·) ∧
      ∀ x ∈ (collectSecondaryAux i lines).1, i < x) ∧
    ((collectSecondaryAux i lines).2.Pairwise (· < ·) ∧
      ∀ x ∈ (collectSecondaryAux i lines).2, i < x) := by
  intro lines
  induction lines with
  | nil => intro i; simp [collectSecondaryAux]
  | cons l rest ih =>
    intro i
    obtain ⟨⟨hp1, hb1⟩, hp2, hb2⟩ := ih (i + 1)
    unfold collectSecondaryAux
    by_cases h1 : containsSub rightTrackPat l
    · rw [if_pos h1]
      refine ⟨⟨List.pairwise_cons.mpr ⟨fun x hx => hb1 x hx, hp1⟩, ?_⟩, hp2,
        fun x hx => by have := hb2 x hx; omega⟩
      intro x hx
      rcases List.mem_cons.mp hx with h | h
      · omega
      · have := hb1 x h; omega
    · rw [if_neg h1]
      by_cases h2 : containsSub rightTimePat l
      · rw [if_pos h2]
        refine ⟨⟨hp1, fun x hx => by have := hb1 x hx; omega⟩,
          List.pairwise_cons.mpr ⟨fun x hx => hb2 x hx, hp2⟩, ?_⟩
        intro x hx
        rcases List.mem_cons.mp hx with h | h
        · omega
        · have := hb2 x h; omega
      · rw [if_neg h2]
        exact ⟨⟨hp1, fun x hx => by have := hb1 x hx; omega⟩,
          hp2, fun x hx => by have := hb2 x hx; omega⟩

theorem mapSet_fresh {m : List (Nat × Nat)} {k : Nat} (h : k ∉ m.map Prod.fst) (v : Nat) :
    mapSet m k v = m ++ [(k, v)] := by
  unfold mapSet
  rw [if_neg h]

theorem buildMapLoop_take : ∀ (j : Nat) (lefts rights : List Nat), lefts.Nodup →
    j ≤ lefts.length → j ≤ rights.length →
    (List.range j).foldl (fun m i => mapSet m (lefts.getD i 0) (rights.getD i 0)) [] =
      (lefts.take j).zip (rights.take j) := by
  intro j
  induction j with
  | zero => intro lefts rights _ _ _; simp
  | succ j ih =>
    intro lefts rights hnd hjl hjr
    rw [List.range_succ, List.foldl_append, ih lefts rights hnd (by omega) (by omega)]
    simp only [List.foldl_cons, List.foldl_nil]
    have hjl' : j < lefts.length := by omega
    have hjr' : j < rights.length := by omega
    have hlg : lefts.getD j 0 = lefts[j] := by
      rw [List.getD_eq_getElem?_getD, List.getElem?_eq_getElem hjl']
      rfl
    have hrg : rights.getD j 0 = rights[j] := by
      rw [List.getD_eq_getElem?_getD, List.getElem?_eq_getElem hjr']
      rfl
    have hmapfst : ((lefts.take j).zip (rights.take j)).map Prod.fst = lefts.take j := by
      apply List.map_fst_zip
      rw [List.length_take, List.length_take]
      omega
    have hfresh : lefts.getD j 0 ∉ ((lefts.take j).zip (rights.take j)).map Prod.fst := by
      rw [hmapfst, hlg]
      intro hmem
      obtain ⟨i, hi, hieq⟩ := List.mem_take_iff_getElem.mp hmem
      have hij : i ≠ j := by omega
      exact hij (List.Nodup.getElem_inj_iff hnd |>.mp hieq)
    rw [mapSet_fresh hfresh, hlg, hrg]
    rw [List.take_succ, List.take_succ, List.getElem?_eq_getElem hjl',
      List.getElem?_eq_getElem hjr']
    simp only [Option.toList_some]
    rw [List.zip_append (by rw [List.length_take, List.length_take]; omega)]
    rfl

theorem buildMapLoop_zip (lefts rights : List Nat) (hnd : lefts.Nodup) :
    buildMapLoop lefts rights = lefts.zip rights := by
  unfold buildMapLoop
  rw [buildMapLoop_take (min lefts.length rights.length) lefts rights hnd
    (by omega) (by omega)]
  rw [List.zip_eq_zipWith, List.zip_eq_zipWith, ← List.take_zipWith, ← List.length_zipWith,
    List.take_length]

theorem zip_pairwise_lt {a b : List Nat} (ha : a.Pairwise (· < ·)) (hb : b.Pairwise (· < ·)) :
    (a.zip b).Pairwise (fun p q => p.1 < q.1 ∧ p.2 < q.2) := by
  rw [List.pairwise_iff_getElem] at ha hb ⊢
  intro i j hi hj hij
  rw [List.length_zip] at hi hj
  rw [List.getElem_zip, List.getElem_zip]
  exact ⟨ha i j (by omega) (by omega) hij, hb i j (by omega) (by omega) hij⟩

theorem pairwise_map_mono {m : List (Nat × Nat)}
    (h : m.Pairwise (fun p q => p.1 < q.1 ∧ p.2 < q.2)) :
    ∀ p ∈ m, ∀ q ∈ m, (p.1 < q.1 → p.2 < q.2) ∧ (p.2 = q.2 → p.1 = q.1) := by
  intro p hp q hq
  obtain ⟨i, hi, hpi⟩ := List.getElem_of_mem hp
  obtain ⟨j, hj, hqj⟩ := List.getElem_of_mem hq
  rw [List.pairwise_iff_getElem] at h
  subst hpi hqj
  rcases Nat.lt_trichotomy i j with hij | hij | hij
  · have := h i j hi hj hij
    exact ⟨fun _ => this.2, fun he => by omega⟩
  · subst hij
    exact ⟨fun hx => by omega, fun _ => rfl⟩
  · have := h j i hj hi hij
    exact ⟨fun hx => by omega, fun he => by omega⟩

/-! ## The claims -/

/-- C7: flexible-spacing rule for annotation lines — any run of tabs and
spaces between the numeric time token and the text is consumed as a single
separator, and whitespace runs inside the text after that first separator
(which, in a trim-fixed text whose interior whitespace is all plain spaces,
are multi-space runs) are preserved verbatim in the parsed text tail. -/
theorem c7_flexible_spacing (st : ParseState) (tok sep txt : List Char)
    (htokne : tok ≠ []) (htokws : ∀ c ∈ tok, jsWs c = false)
    (hsepne : sep ≠ []) (hsep : ∀ c ∈ sep, c = ' ' ∨ c = '\t')
    (htxtne : txt ≠ []) (htxtfix : jsTrim txt = txt)
    (htxtsp : ∀ c ∈ txt, jsWs c = true → c = ' ')
    (hhd : tok.headD ' ' ≠ '#')
    (hnothdr : headerTest (tok ++ sep ++ txt) = false) :
    processLine st (tok ++ sep ++ txt) =
      ⟨st.out, some ⟨(st.cur.getD ⟨none, []⟩).track_name,
        (st.cur.getD ⟨none, []⟩).annotations ++ [⟨parseFloat tok, decodeStr txt⟩]⟩⟩ := by
  have hsepws : ∀ c ∈ sep, jsWs c = true := by
    intro c hc
    rcases hsep c hc with h | h <;> subst h <;> decide
  obtain ⟨t0, tr, htok⟩ : ∃ t0 tr, tok = t0 :: tr := by
    cases tok with
    | nil => exact absurd rfl htokne
    | cons a b => exact ⟨a, b, rfl⟩
  have hlast : jsWs (txt.getLast htxtne) = false := getLast_not_ws_of_trim_fix htxtfix htxtne
  have htr : jsTrim (tok ++ sep ++ txt) = tok ++ sep ++ txt := by
    rw [htok, List.cons_append, List.cons_append,
      jsTrim_cons_not_ws (htokws t0 (by rw [htok]; simp))]
    congr 1
    exact trimRight_append_right htxtne hlast _
  have h0 : jsTrim (tok ++ sep ++ txt) ≠ [] := by
    rw [htr, htok]
    simp
  have h1 : headerTest (jsTrim (tok ++ sep ++ txt)) = false := by
    rw [htr]
    exact hnothdr
  have hhd' : t0 ≠ '#' := by
    rw [htok] at hhd
    simpa using hhd
  have h2 : ¬ (jsTrim (tok ++ sep ++ txt)).headD ' ' = '#' := by
    rw [htr, htok, List.cons_append, List.cons_append]
    simpa using hhd'
  obtain ⟨s0, sr, hsep0⟩ : ∃ s0 sr, sep = s0 :: sr := by
    cases sep with
    | nil => exact absurd rfl hsepne
    | cons a b => exact ⟨a, b, rfl⟩
  have hsplit : splitSingle jsWs (tok ++ sep ++ txt) =
      tok :: (List.replicate sr.length [] ++ splitSingle jsWs txt) := by
    rw [show tok ++ sep ++ txt = tok ++ (sep ++ txt) from by simp, hsep0, List.cons_append,
      splitSingle_clean_append htokws (hsepws s0 (by rw [hsep0]; simp)) _,
      splitSingle_allws_append (fun c hc => hsepws c (by rw [hsep0]; simp [hc])) txt]
  have hjoin : jsTrim (joinSp (List.replicate sr.length [] ++ splitSingle jsWs txt)) = txt := by
    rw [joinSp_replicate_nil sr.length (splitSingle_ne_nil jsWs txt),
      joinSp_splitSingle_jsWs htxtsp]
    unfold jsTrim
    rw [dropWhile_append_allws (fun c hc => by rw [List.eq_of_mem_replicate hc]; decide) txt]
    exact htxtfix
  have hann : annOfLine (tok ++ sep ++ txt) = ⟨parseFloat tok, decodeStr txt⟩ := by
    simp only [annOfLine]
    rw [htr, hsplit]
    simp only [List.headD_cons, List.tail_cons]
    rw [hjoin]
  rw [processLine_ann h0 h1 h2, hann]

/-- C7 witness: the line `"1.5 \t a  b"` (several separator characters, a
double space inside the text) parses to time `1.5` and text `"a  b"`. -/
theorem c7_flexible_spacing_witness :
    processLine ⟨[], none⟩ (('1' :: '.' :: '5' :: []) ++ (' ' :: '\t' :: ' ' :: []) ++
        ('a' :: ' ' :: ' ' :: 'b' :: [])) =
      ⟨[], some ⟨none, [⟨JNum.num ⟨15, 1⟩, some ('a' :: ' ' :: ' ' :: 'b' :: [])⟩]⟩⟩ := by
  rw [c7_flexible_spacing ⟨[], none⟩ _ _ _ (by decide) (by decide) (by decide) (by decide)
    (by decide) (by decide) (by decide) (by decide) (by decide)]
  decide

/-- C8: orphan rule — when the lines before the first header line contain at
least one annotation line, the parser collects exactly those annotations, in
order, into exactly one implicit track with a null name, and the remaining
lines parse independently. -/
theorem c8_orphan_rule (T : List Char) (pre rest : List (List Char))
    (hsplit : splitNl T = pre ++ rest)
    (hpre : ∀ l ∈ pre, parserIsHeaderLine l = false)
    (hann : annsOfLines pre ≠ [])
    (hrest : ∀ l ∈ rest.take 1, parserIsHeaderLine l = true) :
    hkannoFromText T =
      ⟨none, annsOfLines pre⟩ :: (if rest = [] then [] else parseLines rest) := by
  unfold hkannoFromText
  rw [hsplit]
  unfold parseLines
  rw [List.foldl_append, foldl_noheader_none pre hpre [], if_neg hann]
  cases rest with
  | nil => simp
  | cons r0 rest' =>
    rw [if_neg (by simp)]
    have hh := hrest r0 (by simp)
    unfold parserIsHeaderLine at hh
    simp only [Bool.and_eq_true, Bool.not_eq_true', decide_eq_false_iff_not] at hh
    obtain ⟨h0, h1⟩ := hh
    simp only [List.foldl_cons]
    rw [processLine_header h0 h1, processLine_header h0 h1]
    rw [foldl_processLine_split rest']
    simp

/-- C8 witness: two annotation lines before the first header form one
implicit null-named track, the rest parses as its own track. -/
theorem c8_orphan_rule_witness :
    hkannoFromText ("1 a\n2 b\ntrackName: x\n3 c".toList) =
      ⟨none, ⟨JNum.num ⟨1, 0⟩, some ('a' :: [])⟩ :: ⟨JNum.num ⟨2, 0⟩, some ('b' :: [])⟩ :: []⟩ ::
        ⟨some ('x' :: []), ⟨JNum.num ⟨3, 0⟩, some ('c' :: [])⟩ :: []⟩ :: [] := by
  rw [c8_orphan_rule ("1 a\n2 b\ntrackName: x\n3 c".toList)
    ("1 a".toList :: "2 b".toList :: []) ("trackName: x".toList :: "3 c".toList :: [])
    (by decide) (by decide) (by decide) (by decide)]
  decide

/-- C9: implicit NaN propagation — every non-blank, non-comment, non-header
line appends exactly one annotation to the current track; its time is the
`parseFloat` of the line's first whitespace-separated token, and when that
token is not shaped like a float literal the time is the `NaN` value, which
enters the model silently. -/
theorem c9_nan_propagation (st : ParseState) (l : List Char)
    (h : parserIsAnnLine l = true) :
    processLine st l = ⟨st.out, some ⟨(st.cur.getD ⟨none, []⟩).track_name,
        (st.cur.getD ⟨none, []⟩).annotations ++ [annOfLine l]⟩⟩ ∧
    (annOfLine l).time = parseFloat (corrFirstTok l) ∧
    (floatShaped (corrFirstTok l) = false → (annOfLine l).time = JNum.nan) := by
  have hp : jsTrim l ≠ [] ∧ headerTest (jsTrim l) = false ∧
      ¬ (jsTrim l).headD ' ' = '#' := by
    unfold parserIsAnnLine at h
    simp only [Bool.and_eq_true, Bool.not_eq_true', decide_eq_false_iff_not] at h
    exact ⟨h.1.1, h.1.2, h.2⟩
  have htime : (annOfLine l).time = parseFloat (corrFirstTok l) := by
    show parseFloat ((splitSingle jsWs (jsTrim l)).headD []) =
      parseFloat ((jsTrim l).takeWhile (fun c => !jsWs c))
    rw [splitSingle_headD_takeWhile]
  refine ⟨processLine_ann hp.1 hp.2.1 hp.2.2, htime, fun hx => ?_⟩
  rw [htime]
  exact (parseFloat_nan_iff _).mpr hx

/-- C9 witness: the line `"abc d"` is an annotation line whose head token
`"abc"` is not float-shaped; it is kept, not dropped, with time `NaN`. -/
theorem c9_nan_propagation_witness :
    parserIsAnnLine ('a' :: 'b' :: 'c' :: ' ' :: 'd' :: []) = true ∧
    processLine ⟨[], none⟩ ('a' :: 'b' :: 'c' :: ' ' :: 'd' :: []) =
      ⟨[], some ⟨none, [⟨JNum.nan, some ('d' :: [])⟩]⟩⟩ ∧
    floatShaped (corrFirstTok ('a' :: 'b' :: 'c' :: ' ' :: 'd' :: [])) = false ∧
    (annOfLine ('a' :: 'b' :: 'c' :: ' ' :: 'd' :: [])).time = JNum.nan := by
  refine ⟨by decide, ?_, by decide, ?_⟩
  · rw [(c9_nan_propagation ⟨[], none⟩ ('a' :: 'b' :: 'c' :: ' ' :: 'd' :: []) (by decide)).1]
    decide
  · exact (c9_nan_propagation ⟨[], none⟩ ('a' :: 'b' :: 'c' :: ' ' :: 'd' :: [])
      (by decide)).2.2 (by decide)

/-- C2 counterexample: the line `"trackName foo"` (no colon) is header-shaped
for the correlator (`trim().startsWith('trackName')`) but an annotation line
for the parser (`/^trackName\s*:/i` needs the colon), and it is an annotation
line the correlator does not count as time-shaped — the two components do not
use the same line-classification predicates. -/
theorem c2_classification_cex :
    corrIsTrackLine ("trackName foo".toList) = true ∧
    parserIsHeaderLine ("trackName foo".toList) = false ∧
    parserIsAnnLine ("trackName foo".toList) = true ∧
    corrIsTimeLine ("trackName foo".toList) = false := by decide

/-- C2 (amended): the correlator's predicates (case-sensitive colon-free
`trackName` prefix; first token parsing as a float) differ from the parser's
in general, but on every line `hkannoToText` emits for a well-formed model
whose times are not `NaN`, the two classifications coincide: header-shaped
exactly on the parser's header lines, time-shaped exactly on the parser's
annotation lines. -/
theorem c2_classification_agree (h : Hkanno)
    (hok : ∀ t ∈ h.annotation_tracks, TrackOk t)
    (hnn : ∀ t ∈ h.annotation_tracks, ∀ a ∈ t.annotations, a.time ≠ JNum.nan) :
    ∀ l ∈ hkannoLines h,
      corrIsTrackLine l = parserIsHeaderLine l ∧ corrIsTimeLine l = parserIsAnnLine l := by
  have hcomment : ∀ (r : List Char),
      corrIsTrackLine ('#' :: r) = parserIsHeaderLine ('#' :: r) ∧
      corrIsTimeLine ('#' :: r) = parserIsAnnLine ('#' :: r) := by
    intro r
    obtain ⟨a, b, c, d⟩ := c2_comment_line r
    rw [a, b, c, d]
    exact ⟨rfl, rfl⟩
  intro l hl
  unfold hkannoLines at hl
  rcases List.mem_cons.mp hl with h1 | hl
  · subst h1
    rw [show ("# numOriginalFrames: ".toList : List Char) =
      '#' :: " numOriginalFrames: ".toList from by decide, List.cons_append]
    exact hcomment _
  rcases List.mem_cons.mp hl with h1 | hl
  · subst h1
    rw [show ("# duration: ".toList : List Char) = '#' :: " duration: ".toList from by decide,
      List.cons_append]
    exact hcomment _
  rcases List.mem_cons.mp hl with h1 | hl
  · subst h1
    rw [show ("# numAnnotationTracks: ".toList : List Char) =
      '#' :: " numAnnotationTracks: ".toList from by decide, List.cons_append]
    exact hcomment _
  obtain ⟨block, hblock, hpiece⟩ := List.mem_flatten.mp hl
  obtain ⟨t, ht, hbt⟩ := List.mem_map.mp hblock
  subst hbt
  rw [show trackLines t = [] :: ("trackName: ".toList ++ encodeOptStr t.track_name)
    :: ("# numAnnotations: ".toList ++ natDigits t.annotations.length)
    :: t.annotations.map annLine from rfl] at hpiece
  rcases List.mem_cons.mp hpiece with h1 | hpiece
  · subst h1
    obtain ⟨a, b, c, d⟩ := c2_blank_line
    rw [a, b, c, d]
    exact ⟨rfl, rfl⟩
  rcases List.mem_cons.mp hpiece with h1 | hpiece
  · subst h1
    obtain ⟨a, b, c, d⟩ := c2_header_line t.track_name (hok t ht).1
    rw [a, b, c, d]
    exact ⟨rfl, rfl⟩
  rcases List.mem_cons.mp hpiece with h1 | hpiece
  · subst h1
    rw [show ("# numAnnotations: ".toList : List Char) =
      '#' :: " numAnnotations: ".toList from by decide, List.cons_append]
    exact hcomment _
  obtain ⟨a, ha, hla⟩ := List.mem_map.mp hpiece
  subst hla
  obtain ⟨x, y, z, w⟩ := c2_ann_line a ((hok t ht).2 a ha) (hnn t ht a ha)
  rw [x, y, z, w]
  exact ⟨rfl, rfl⟩

/-- C2 witness: on a concrete serialized document, the header line is
classified as a header by both components. -/
theorem c2_classification_agree_witness :
    ("trackName: a".toList ∈ hkannoLines ⟨[], JNum.num ⟨0, 0⟩, JNum.num ⟨0, 0⟩,
        ⟨some ('a' :: []), ⟨JNum.num ⟨15, 1⟩, some ('x' :: [])⟩ :: []⟩ :: []⟩) ∧
    (corrIsTrackLine ("trackName: a".toList) = parserIsHeaderLine ("trackName: a".toList) ∧
     corrIsTimeLine ("trackName: a".toList) = parserIsAnnLine ("trackName: a".toList)) :=
  ⟨by decide, c2_classification_agree ⟨[], JNum.num ⟨0, 0⟩, JNum.num ⟨0, 0⟩,
      ⟨some ('a' :: []), ⟨JNum.num ⟨15, 1⟩, some ('x' :: [])⟩ :: []⟩ :: []⟩
    (by decide) (by decide) ("trackName: a".toList) (by decide)⟩

theorem zip_getD {a b : List Nat} {k : Nat} (h : k < min a.length b.length) :
    (a.zip b).getD k (0, 0) = (a.getD k 0, b.getD k 0) := by
  have hz : k < (a.zip b).length := by rw [List.length_zip]; omega
  rw [List.getD_eq_getElem?_getD, List.getElem?_eq_getElem hz,
    List.getD_eq_getElem?_getD, List.getElem?_eq_getElem (by omega : k < a.length),
    List.getD_eq_getElem?_getD, List.getElem?_eq_getElem (by omega : k < b.length)]
  simp [List.getElem_zip]

/-- C3: correlator pairing — each map built by `buildIndexMaps` has exactly
`min(N, M)` entries, and its `k`-th entry pairs the line number of the `k`-th
header-shaped (resp. time-shaped) occurrence of the primary text with that of
the `k`-th tag occurrence of the secondary text, whatever the lines' textual
content; surplus occurrences on either side are left unmapped. -/
theorem c3_correlator_pairing (leftText xmlText : List Char) :
    (buildIndexMaps leftText xmlText).trackMap.length =
      min (collectPrimary (splitCrNl leftText)).1.length
          (collectSecondary (splitCrNl xmlText)).1.length ∧
    (buildIndexMaps leftText xmlText).timeMap.length =
      min (collectPrimary (splitCrNl leftText)).2.length
          (collectSecondary (splitCrNl xmlText)).2.length ∧
    (∀ k, k < min (collectPrimary (splitCrNl leftText)).1.length
          (collectSecondary (splitCrNl xmlText)).1.length →
      (buildIndexMaps leftText xmlText).trackMap.getD k (0, 0) =
        ((collectPrimary (splitCrNl leftText)).1.getD k 0,
         (collectSecondary (splitCrNl xmlText)).1.getD k 0)) ∧
    (∀ k, k < min (collectPrimary (splitCrNl leftText)).2.length
          (collectSecondary (splitCrNl xmlText)).2.length →
      (buildIndexMaps leftText xmlText).timeMap.getD k (0, 0) =
        ((collectPrimary (splitCrNl leftText)).2.getD k 0,
         (collectSecondary (splitCrNl xmlText)).2.getD k 0)) := by
  have hndL1 : (collectPrimary (splitCrNl leftText)).1.Nodup :=
    ((collectPrimaryAux_facts (splitCrNl leftText) 0).1.1).imp fun hab => Nat.ne_of_lt hab
  have hndL2 : (collectPrimary (splitCrNl leftText)).2.Nodup :=
    ((collectPrimaryAux_facts (splitCrNl leftText) 0).2.1).imp fun hab => Nat.ne_of_lt hab
  have ht : (buildIndexMaps leftText xmlText).trackMap =
      (collectPrimary (splitCrNl leftText)).1.zip (collectSecondary (splitCrNl xmlText)).1 :=
    buildMapLoop_zip _ _ hndL1
  have hm : (buildIndexMaps leftText xmlText).timeMap =
      (collectPrimary (splitCrNl leftText)).2.zip (collectSecondary (splitCrNl xmlText)).2 :=
    buildMapLoop_zip _ _ hndL2
  refine ⟨?_, ?_, ?_, ?_⟩
  · rw [ht, List.length_zip]
  · rw [hm, List.length_zip]
  · intro k hk
    rw [ht, zip_getD hk]
  · intro k hk
    rw [hm, zip_getD hk]

/-- C3 witness: one header-shaped line on each side pairs line 1 with
line 1. -/
theorem c3_correlator_pairing_witness :
    0 < min (collectPrimary (splitCrNl ("trackName: a\n1.0 x".toList))).1.length
        (collectSecondary (splitCrNl ("<hkparam name=\"trackName\">z".toList))).1.length ∧
    (buildIndexMaps ("trackName: a\n1.0 x".toList)
        ("<hkparam name=\"trackName\">z".toList)).trackMap.getD 0 (0, 0) = (1, 1) := by
  refine ⟨by decide, ?_⟩
  rw [(c3_correlator_pairing ("trackName: a\n1.0 x".toList)
    ("<hkparam name=\"trackName\">z".toList)).2.2.1 0 (by decide)]
  decide

/-- C10: each of the two maps returned by `buildIndexMaps` is strictly
order-preserving on keys (larger key, larger value) and value-injective, so
cross-view jumps never reorder or collide. -/
theorem c10_map_monotone (leftText xmlText : List Char) :
    (∀ p ∈ (buildIndexMaps leftText xmlText).trackMap,
      ∀ q ∈ (buildIndexMaps leftText xmlText).trackMap,
        (p.1 < q.1 → p.2 < q.2) ∧ (p.2 = q.2 → p.1 = q.1)) ∧
    (∀ p ∈ (buildIndexMaps leftText xmlText).timeMap,
      ∀ q ∈ (buildIndexMaps leftText xmlText).timeMap,
        (p.1 < q.1 → p.2 < q.2) ∧ (p.2 = q.2 → p.1 = q.1)) := by
  have hL := collectPrimaryAux_facts (splitCrNl leftText) 0
  have hR := collectSecondaryAux_facts (splitCrNl xmlText) 0
  have ht : (buildIndexMaps leftText xmlText).trackMap =
      (collectPrimary (splitCrNl leftText)).1.zip (collectSecondary (splitCrNl xmlText)).1 :=
    buildMapLoop_zip _ _ (hL.1.1.imp fun hab => Nat.ne_of_lt hab)
  have hm : (buildIndexMaps leftText xmlText).timeMap =
      (collectPrimary (splitCrNl leftText)).2.zip (collectSecondary (splitCrNl xmlText)).2 :=
    buildMapLoop_zip _ _ (hL.2.1.imp fun hab => Nat.ne_of_lt hab)
  constructor
  · rw [ht]
    exact pairwise_map_mono (zip_pairwise_lt hL.1.1 hR.1.1)
  · rw [hm]
    exact pairwise_map_mono (zip_pairwise_lt hL.2.1 hR.2.1)

/-- C10 witness: with two header-shaped lines on each side, the entries
`(1, 1)` and `(3, 2)` of the header map respect the key order. -/
theorem c10_map_monotone_witness :
    ((1, 1) : Nat × Nat) ∈ (buildIndexMaps ("trackName: a\n1.0 x\ntrackName: b".toList)
      ("<hkparam name=\"trackName\">\n<hkparam name=\"trackName\">".toList)).trackMap ∧
    ((3, 2) : Nat × Nat) ∈ (buildIndexMaps ("trackName: a\n1.0 x\ntrackName: b".toList)
      ("<hkparam name=\"trackName\">\n<hkparam name=\"trackName\">".toList)).trackMap ∧
    ((1, 1) : Nat × Nat).2 < ((3, 2) : Nat × Nat).2 :=
  ⟨by decide, by decide,
    ((c10_map_monotone ("trackName: a\n1.0 x\ntrackName: b".toList)
        ("<hkparam name=\"trackName\">\n<hkparam name=\"trackName\">".toList)).1
      (1, 1) (by decide) (3, 2) (by decide)).1 (by decide)⟩

/-- C4 counterexample: the non-null text `" a "` contains no sentinel, yet
encoding (which trims) and decoding returns `"a"`, not the original string —
the round trip only holds for trim-fixed strings. -/
theorem c4_sentinel_cex :
    decodeStr (encodeOptStr (some (' ' :: 'a' :: ' ' :: []))) ≠
      some (' ' :: 'a' :: ' ' :: []) ∧
    '␀' ∉ (' ' :: 'a' :: ' ' :: []) := by decide

/-- C4 (amended): encoding null writes exactly the sentinel token; a field
whose entire trimmed value is the sentinel decodes to null, never to the
literal sentinel string; and a non-sentinel, trim-fixed string survives the
encode–decode round trip unchanged. -/
theorem c4_sentinel_law (s : List Char) (h1 : jsTrim s = s) (h2 : s ≠ NULL_STR) :
    encodeOptStr none = NULL_STR ∧
    decodeStr NULL_STR = none ∧
    decodeStr (encodeOptStr (some s)) = some s := by
  refine ⟨rfl, by decide, ?_⟩
  show decodeStr (jsTrim s) = some s
  rw [h1]
  unfold decodeStr
  rw [if_neg h2]

/-- C4 witness: the one-character string `"a"` round-trips. -/
theorem c4_sentinel_law_witness :
    jsTrim ('a' :: []) = 'a' :: [] ∧ ('a' :: []) ≠ NULL_STR ∧
    decodeStr (encodeOptStr (some ('a' :: []))) = some ('a' :: []) :=
  ⟨by decide, by decide, (c4_sentinel_law ('a' :: []) (by decide) (by decide)).2.2⟩

/-- C5 counterexample: on the header line `"trackName: a:b"` the parser keeps
only the segment before the second colon — the track name is `"a"`, not the
entire trimmed value `"a:b"` after the first colon. -/
theorem c5_header_cex :
    hkannoFromText ("trackName: a:b".toList) = ⟨some ('a' :: []), []⟩ :: [] ∧
    some ('a' :: []) ≠ some ('a' :: ':' :: 'b' :: []) := by decide

/-- C5 (amended): a line of shape `whitespace, trackName (case-insensitive),
whitespace, colon, value` is a header line: the pending track is pushed and a
new current track opens whose name is the trimmed part of the value before
its first colon, decoded through the sentinel rule — not the entire value. -/
theorem c5_header_rule (st : ParseState) (w0 kw w1 v : List Char)
    (hw0 : ∀ c ∈ w0, jsWs c = true) (hw1 : ∀ c ∈ w1, jsWs c = true)
    (hkw : kw.map Char.toLower = "trackname".toList) :
    processLine st (w0 ++ kw ++ w1 ++ ':' :: v) =
      ⟨st.out ++ st.cur.toList, some ⟨decodeStr (jsTrim (beforeColon v)), []⟩⟩ :=
  processLine_header_value st w0 kw w1 v hw0 hw1 hkw

/-- C5 witness: `" TrackName : my:track "` (odd case, padding, inner colon)
opens a track named `"my"`. -/
theorem c5_header_rule_witness :
    processLine ⟨[], none⟩ ((' ' :: []) ++ "TrackName".toList ++ (' ' :: []) ++
        ':' :: " my:track ".toList) =
      ⟨[], some ⟨some ('m' :: 'y' :: []), []⟩⟩ := by
  rw [c5_header_rule ⟨[], none⟩ (' ' :: []) ("TrackName".toList) (' ' :: [])
    (" my:track ".toList) (by decide) (by decide) (by decide)]
  decide

/-- C6 counterexample: a `NaN` time (as the parser itself produces for a
malformed numeric head) serializes as the annotation line `"NaN ␀"`, whose
time token has no decimal point at all, let alone six digits after it. -/
theorem c6_six_decimals_cex :
    annLine ⟨JNum.nan, none⟩ ∈ hkannoLines ⟨[], JNum.num ⟨0, 0⟩, JNum.num ⟨0, 0⟩,
      ⟨none, ⟨JNum.nan, none⟩ :: []⟩ :: []⟩ ∧
    annLine ⟨JNum.nan, none⟩ = 'N' :: 'a' :: 'N' :: ' ' :: '␀' :: [] ∧
    sixDecimals (toFixed6 JNum.nan) = false := by decide

/-- C6 (amended): every annotation line emitted for a finite time of
magnitude below `10^21` renders that time with exactly six digits after the
decimal point; `NaN`, infinities and huge magnitudes fall back to other
formats. -/
theorem c6_six_decimals (h : Hkanno)
    (hfin : ∀ t ∈ h.annotation_tracks, ∀ a ∈ t.annotations,
      ∃ d, a.time = JNum.num d ∧ d.mant.natAbs < 10 ^ (21 + d.exp)) :
    ∀ t ∈ h.annotation_tracks, ∀ a ∈ t.annotations,
      ∃ tok rest, annLine a = tok ++ ' ' :: rest ∧ sixDecimals tok = true := by
  intro t ht a ha
  obtain ⟨d, hd, hbound⟩ := hfin t ht a ha
  exact ⟨toFixed6 a.time, encodeOptStr a.text, rfl, by
    rw [hd]
    exact sixDecimals_toFixed6 d hbound⟩

/-- C6 witness: the time `1.5` of a one-annotation document renders as
`"1.500000"`. -/
theorem c6_six_decimals_witness :
    ∃ tok rest, annLine ⟨JNum.num ⟨15, 1⟩, some ('x' :: [])⟩ = tok ++ ' ' :: rest ∧
      sixDecimals tok = true :=
  c6_six_decimals ⟨[], JNum.num ⟨0, 0⟩, JNum.num ⟨0, 0⟩,
      ⟨none, ⟨JNum.num ⟨15, 1⟩, some ('x' :: [])⟩ :: []⟩ :: []⟩
    (fun t ht a ha => by
      have ht' := List.mem_singleton.mp ht
      subst ht'
      have ha' := List.mem_singleton.mp ha
      subst ha'
      exact ⟨⟨15, 1⟩, rfl, by norm_num⟩)
    ⟨none, ⟨JNum.num ⟨15, 1⟩, some ('x' :: [])⟩ :: []⟩ (by decide)
    ⟨JNum.num ⟨15, 1⟩, some ('x' :: [])⟩ (by decide)

/-- C1 counterexample: the text `"0.1234567 a"` parses, but serializing
rounds the time to six decimals (`0.123457`), so parsing again yields a
different track sequence — the round trip is not the identity on parses. -/
theorem c1_roundtrip_cex :
    hkannoFromText (hkannoToText ⟨[], JNum.num ⟨0, 0⟩, JNum.num ⟨0, 0⟩,
        hkannoFromText ("0.1234567 a".toList)⟩) ≠
      hkannoFromText ("0.1234567 a".toList) := by decide

/-- C1 (amended): parsing, serializing and parsing again returns the parsed
track sequence up to the time canonicalization `parseFloat ∘ toFixed(6)`:
same track order, same names, same texts, times rounded to six decimals. -/
theorem c1_roundtrip_canon (T : List Char) (h : Hkanno)
    (hts : h.annotation_tracks = hkannoFromText T) :
    hkannoFromText (hkannoToText h) = canonTracks h.annotation_tracks := by
  refine hkannoFromText_hkannoToText h ?_
  rw [hts]
  exact hkannoFromText_TracksOk T

/-- C1 witness: a two-line document round-trips onto its canonicalized
parse. -/
theorem c1_roundtrip_canon_witness :
    (⟨[], JNum.num ⟨0, 0⟩, JNum.num ⟨0, 0⟩,
        hkannoFromText ("trackName: a\n1.5 walk".toList)⟩ : Hkanno).annotation_tracks =
      hkannoFromText ("trackName: a\n1.5 walk".toList) ∧
    hkannoFromText (hkannoToText ⟨[], JNum.num ⟨0, 0⟩, JNum.num ⟨0, 0⟩,
        hkannoFromText ("trackName: a\n1.5 walk".toList)⟩) =
      canonTracks (⟨[], JNum.num ⟨0, 0⟩, JNum.num ⟨0, 0⟩,
          hkannoFromText ("trackName: a\n1.5 walk".toList)⟩ : Hkanno).annotation_tracks :=
  ⟨rfl, c1_roundtrip_canon ("trackName: a\n1.5 walk".toList) _ rfl⟩

end Lunaris
